import Mathlib

/-!
# Verification of the `measuringringbuffer` package

Shallow embedding of the Go package `measuringringbuffer`: a single-use,
fixed-capacity byte ring buffer copying data from an `io.Reader` (the source)
to an `io.Writer` (the sink) while measuring the time spent in each phase.

The shared mutable `Buffer` state is embedded as a Lean structure, and the
concurrent execution of `ReadFrom` (producer goroutine) and `WriteTo`
(consumer) is embedded as a small-step interleaving relation `Step`: each
section of code executed while holding the mutex `b.mtx` is one atomic step,
and each blocking I/O call (performed with the lock released) is split into a
"start" step (the locked prologue that computes the slice and timestamps the
phase) and a "finish" step (the locked epilogue that commits the result).
This is sound because in the Go code every access to shared fields happens
under the single mutex, and the I/O call itself only touches the local slice
handed out before the lock was released.

The external source is modelled as a script of `Read` results (each a byte
list together with an optional error), the sink as a script of `Write`
results (accepted count and optional error), with the Go `io` contract that
a call never reports more bytes than the slice it was handed.  `cond.Wait`
wake-ups are over-approximated: a waiter may re-check its condition at any
time, which is a superset of the signalled behaviours and hence sound for
the safety properties proved here.

Time is modelled by a ghost `clock : Nat` threaded through the steps
(`time.Now()` is monotone and never the zero `time.Time`, so the clock
starts at 1 and never decreases); durations are `Int` like Go's
`time.Duration`.  The duration of an I/O phase is captured by
`time.Since(...)` when the call returns, BEFORE the mutex is re-acquired
(lines 131 and 201), so the commit steps carry two times: `tr`, the
I/O-return time at which the duration endpoint was captured (ordered only
by `lastReadStarted ≤ tr ≤ t`, not by the lock), and `t`, the lock-ordered
commit time that advances the clock.  A `Stats()` call interleaved between
the I/O return and the commit can therefore report more in-flight time
than the commit later adds.
-/

/-- Go `error` values as they occur in this package: the distinguished
`io.EOF`, arbitrary other errors (indexed by a code), and the two wrappings
produced by `fmt.Errorf` with a phase tag: `fmt.Errorf("read error: %w", err)`
is `wrapRead err` and `fmt.Errorf("write error: %w", err)` is `wrapWrite err`. -/
inductive GoError where
  | eof : GoError
  | other : Nat → GoError
  | wrapRead : GoError → GoError
  | wrapWrite : GoError → GoError
deriving DecidableEq

/-- A byte of the relayed data (Go `byte`); the package never computes on
byte values, so `Nat` is a faithful carrier. -/
abbrev Byte := Nat

/-- The shared state of `type Buffer struct` (source lines 43-58).
`time.Time` fields are natural-number instants with `0` as the zero value
(`IsZero`); `time.Duration` fields are integers. -/
structure Buffer where
  buf : List Byte
  readIndex : Int
  ready : Int
  totalBytesRead : Int
  readError : Option GoError
  writeError : Option GoError
  timeStarted : Nat
  lastReadStarted : Nat
  lastWriteStarted : Nat
  timeSpentReading : Int
  timeSpentWriting : Int
  totalTimeSpent : Int
deriving DecidableEq

/-- `func New(size int) *Buffer` (lines 63-69): `make([]byte, size)` zero-fills. -/
def New (size : Nat) : Buffer :=
  { buf := List.replicate size 0
    readIndex := 0
    ready := 0
    totalBytesRead := 0
    readError := none
    writeError := none
    timeStarted := 0
    lastReadStarted := 0
    lastWriteStarted := 0
    timeSpentReading := 0
    timeSpentWriting := 0
    totalTimeSpent := 0 }

/-- `type Stats struct` (lines 78-85). -/
structure Stats where
  BufferCapacity : Nat
  BufferedBytes : Int
  BytesRead : Int
  TotalTime : Int
  TimeSpentReading : Int
  TimeSpentWriting : Int
deriving DecidableEq

/-- Alias for the `Stats` structure, needed to name it from inside the
`Buffer` namespace. -/
abbrev BufStats := Stats

/-- `func (b *Buffer) Stats() Stats` (lines 87-109): captures `now` once,
copies the counters, then adds the in-flight portion of each timer whose
start timestamp is non-zero. -/
def Buffer.Stats (b : Buffer) (now : Nat) : BufStats :=
  let s : BufStats :=
    { BufferCapacity := b.buf.length
      BufferedBytes := b.ready
      TimeSpentReading := b.timeSpentReading
      TimeSpentWriting := b.timeSpentWriting
      TotalTime := b.totalTimeSpent
      BytesRead := b.totalBytesRead }
  let s := if b.timeStarted ≠ 0 then
    { s with TotalTime := s.TotalTime + ((now : Int) - (b.timeStarted : Int)) } else s
  let s := if b.lastReadStarted ≠ 0 then
    { s with TimeSpentReading := s.TimeSpentReading + ((now : Int) - (b.lastReadStarted : Int)) } else s
  let s := if b.lastWriteStarted ≠ 0 then
    { s with TimeSpentWriting := s.TimeSpentWriting + ((now : Int) - (b.lastWriteStarted : Int)) } else s
  s

/-- Modelled from the spec: the snapshot formula of spec section 4.2 — each
reported time is the accumulated duration plus `now - start` for a phase
whose start timestamp is open (non-zero), together with the current `filled`
count, capacity and total bytes read.  Used to check `Buffer.Stats` against
the spec's wording. -/
def statsSpec (b : Buffer) (now : Nat) : Stats :=
  { BufferCapacity := b.buf.length
    BufferedBytes := b.ready
    BytesRead := b.totalBytesRead
    TotalTime := b.totalTimeSpent +
      (if b.timeStarted ≠ 0 then (now : Int) - (b.timeStarted : Int) else 0)
    TimeSpentReading := b.timeSpentReading +
      (if b.lastReadStarted ≠ 0 then (now : Int) - (b.lastReadStarted : Int) else 0)
    TimeSpentWriting := b.timeSpentWriting +
      (if b.lastWriteStarted ≠ 0 then (now : Int) - (b.lastWriteStarted : Int) else 0) }

/-- `until` in `ReadFrom` (lines 120-125): the exclusive end of the
contiguous free sub-range offered to `r.Read`. -/
def prodUntil (b : Buffer) : Int :=
  if b.readIndex > b.ready then (b.buf.length : Int)
  else b.readIndex - b.ready + (b.buf.length : Int)

/-- Length of the slice `b.buf[b.readIndex:until]` handed to `r.Read`
(line 126). -/
def prodSliceLen (b : Buffer) : Int := prodUntil b - b.readIndex

/-- Start index of the slice computed in `WriteTo` (lines 188-193):
`b.buf[b.readIndex-b.ready : b.readIndex]` when `b.readIndex-b.ready >= 0`,
otherwise `b.buf[b.readIndex-b.ready+len(b.buf):]`. -/
def consSliceStart (b : Buffer) : Int :=
  if b.readIndex - b.ready ≥ 0 then b.readIndex - b.ready
  else b.readIndex - b.ready + (b.buf.length : Int)

/-- Length of the (uncapped) slice computed in `WriteTo` (lines 188-193). -/
def consSliceLen (b : Buffer) : Int :=
  if b.readIndex - b.ready ≥ 0 then b.ready
  else (b.buf.length : Int) - (b.readIndex - b.ready + (b.buf.length : Int))

/-- Go slice expression `l[i:j]` for in-range integer bounds. -/
def goSlice (l : List Byte) (i j : Int) : List Byte :=
  (l.take j.toNat).drop i.toNat

/-- The byte values of the (uncapped) slice computed in `WriteTo`
(lines 188-193). -/
def consSliceFull (b : Buffer) : List Byte :=
  if b.readIndex - b.ready ≥ 0 then goSlice b.buf (b.readIndex - b.ready) b.readIndex
  else goSlice b.buf (b.readIndex - b.ready + (b.buf.length : Int)) (b.buf.length : Int)

/-- `maxWrite` in `WriteTo` (lines 162-166): `len(b.buf) / 8`, forced up
to `1` when smaller. -/
def maxWrite (size : Nat) : Nat :=
  if size / 8 < 1 then 1 else size / 8

/-- `if len(buf) > maxWrite { buf = buf[:maxWrite] }` (lines 197-199). -/
def capSlice (l : List Byte) (m : Nat) : List Byte :=
  if l.length > m then l.take m else l

/-- Writes the byte list `bs` into `l` starting at index `i`: the effect of
`r.Read(buf)` storing `bs.length` bytes into the slice `b.buf[readIndex:until]`
(the sub-range is contiguous, so no wrap-around happens within one call). -/
def setRange : List Byte → Nat → List Byte → List Byte
  | l, _, [] => l
  | l, i, c :: bs => setRange (l.set i c) (i + 1) bs

/-- `if b.timeStarted.IsZero() { b.timeStarted = time.Now() }`
(lines 115-117 and 170-172). -/
def startTotalClock (b : Buffer) (t : Nat) : Buffer :=
  { b with timeStarted := if b.timeStarted = 0 then t else b.timeStarted }

/-- The deferred total-clock stop in `WriteTo` (lines 173-177):
`b.totalTimeSpent += time.Since(b.timeStarted); b.timeStarted = time.Time{}`. -/
def stopTotalClock (b : Buffer) (t : Nat) : Buffer :=
  { b with
    totalTimeSpent := b.totalTimeSpent + ((t : Int) - (b.timeStarted : Int))
    timeStarted := 0 }

/-- The epilogue of the read call in `ReadFrom` (lines 131-140): commit the
`n = bs.length` bytes read into the free region, advance `readIndex` modulo
the capacity, grow `ready` and `totalBytesRead`, account the read time and
clear the read phase timestamp.  `tr` is the time at which
`dur := time.Since(b.lastReadStarted)` was evaluated (line 131) — this
happens when `r.Read` returns, BEFORE the mutex is re-acquired, so `tr` can
be earlier than intervening lock-ordered events such as `Stats()` calls;
the commit itself runs later under the lock. -/
def finishReadBuf (b : Buffer) (bs : List Byte) (tr : Nat) : Buffer :=
  { b with
    buf := setRange b.buf b.readIndex.toNat bs
    readIndex := (b.readIndex + (bs.length : Int)) % (b.buf.length : Int)
    ready := b.ready + (bs.length : Int)
    totalBytesRead := b.totalBytesRead + (bs.length : Int)
    timeSpentReading := b.timeSpentReading + ((tr : Int) - (b.lastReadStarted : Int))
    lastReadStarted := 0 }

/-- The epilogue of the write call in `WriteTo` (lines 201-208): shrink
`ready` by the `n` bytes the sink accepted, account the write time and
clear the write phase timestamp.  `tr` is the time at which
`dur := time.Since(b.lastWriteStarted)` was evaluated (line 201) — when
`w.Write` returns, BEFORE the mutex is re-acquired — so `tr` can be earlier
than intervening lock-ordered events; the commit runs later under the lock. -/
def finishWriteBuf (b : Buffer) (n : Nat) (tr : Nat) : Buffer :=
  { b with
    ready := b.ready - (n : Int)
    timeSpentWriting := b.timeSpentWriting + ((tr : Int) - (b.lastWriteStarted : Int))
    lastWriteStarted := 0 }

/-- Control location of the producer (`ReadFrom`, lines 111-158). -/
inductive PPhase where
  | entry : PPhase
  | loopTop : PPhase
  | reading : Nat → PPhase
  | waitingFull : PPhase
  | done : Option GoError → PPhase
deriving DecidableEq

/-- Control location of the consumer (`WriteTo`, lines 160-215); `writing`
carries the byte values of the (already capped) slice passed to `w.Write`. -/
inductive WPhase where
  | entry : WPhase
  | loopTop : WPhase
  | writing : List Byte → WPhase
  | done : Option GoError → WPhase
deriving DecidableEq

/-- A `Read` result of the external source: the bytes stored into the slice
together with the returned error (Go allows `n > 0` with a non-nil error). -/
abbrev ReadRes := List Byte × Option GoError

/-- A `Write` result of the external sink: the accepted byte count and the
returned error. -/
abbrev WriteRes := Nat × Option GoError

/-- Whole-system state for one `Copy`: the shared `Buffer`, the two control
locations with their local `sum` accumulators, the remaining source and sink
scripts, the ghost histories of bytes handed over by the source (`produced`)
and accepted by the sink (`delivered`), and the ghost time of the last step. -/
structure Sys where
  b : Buffer
  pphase : PPhase
  psum : Int
  wphase : WPhase
  wsum : Int
  src : List ReadRes
  snk : List WriteRes
  produced : List Byte
  delivered : List Byte
  clock : Nat
deriving DecidableEq

/-- State right after `New(size)` followed by `Copy(w, r)` spawning both
sides, before either has run. -/
def initSys (size : Nat) (src : List ReadRes) (snk : List WriteRes) : Sys :=
  { b := New size
    pphase := PPhase.entry
    psum := 0
    wphase := WPhase.entry
    wsum := 0
    src := src
    snk := snk
    produced := []
    delivered := []
    clock := 1 }

/-- One atomic step of the interleaved execution of `ReadFrom` and `WriteTo`
on one `Buffer` (each constructor is one mutex-protected section of the Go
code, at time `t`). -/
inductive Step : Sys → Sys → Prop where
  /-- `ReadFrom` lines 113-117: lock, open the total clock if not yet open. -/
  | prodEnter (s : Sys) (t : Nat) (hc : s.clock ≤ t) (hp : s.pphase = PPhase.entry) :
      Step s { s with b := startTotalClock s.b t, pphase := PPhase.loopTop, clock := t }
  /-- `ReadFrom` lines 119-128: compute the free sub-range, timestamp the
  read phase, unlock, and enter the blocking `r.Read` call. -/
  | prodStartRead (s : Sys) (t : Nat) (hc : s.clock ≤ t) (hp : s.pphase = PPhase.loopTop) :
      Step s { s with b := { s.b with lastReadStarted := t },
                      pphase := PPhase.reading (prodSliceLen s.b).toNat, clock := t }
  /-- `ReadFrom` lines 130-147, case `err != nil`: the read returned at
  time `tr` (when `dur` was captured, line 131, without the lock); the
  commit at lock time `t ≥ tr` records the bytes and `readError` and
  returns — `nil` to the caller when the error is `io.EOF`, the error
  itself otherwise. -/
  | prodFinishReadErr (s : Sys) (tr t : Nat) (pl : Nat) (bs : List Byte) (e : GoError)
      (rest : List ReadRes) (hc : s.clock ≤ t) (htr : tr ≤ t)
      (hlr : s.b.lastReadStarted ≤ tr) (hp : s.pphase = PPhase.reading pl)
      (hsrc : s.src = (bs, some e) :: rest) (hn : bs.length ≤ pl) :
      Step s { s with
        b := { finishReadBuf s.b bs tr with readError := some e }
        pphase := PPhase.done (if e = GoError.eof then none else some e)
        psum := s.psum + (bs.length : Int)
        src := rest
        produced := s.produced ++ bs
        clock := t }
  /-- `ReadFrom` lines 130-150, case `err == nil` with a recorded
  `writeError`: the read returned at `tr` (duration endpoint, line 131);
  the commit at lock time `t ≥ tr` records the bytes and returns the write
  error (lines 148-150). -/
  | prodFinishReadWErr (s : Sys) (tr t : Nat) (pl : Nat) (bs : List Byte) (w : GoError)
      (rest : List ReadRes) (hc : s.clock ≤ t) (htr : tr ≤ t)
      (hlr : s.b.lastReadStarted ≤ tr) (hp : s.pphase = PPhase.reading pl)
      (hsrc : s.src = (bs, none) :: rest) (hn : bs.length ≤ pl)
      (hw : s.b.writeError = some w) :
      Step s { s with
        b := finishReadBuf s.b bs tr
        pphase := PPhase.done (some w)
        psum := s.psum + (bs.length : Int)
        src := rest
        produced := s.produced ++ bs
        clock := t }
  /-- `ReadFrom` lines 130-156, case `err == nil`, no `writeError`: the
  read returned at `tr` (duration endpoint, line 131); the commit at lock
  time `t ≥ tr` records the bytes, then either blocks on the full-ring wait
  (line 151) or loops. -/
  | prodFinishReadOk (s : Sys) (tr t : Nat) (pl : Nat) (bs : List Byte)
      (rest : List ReadRes) (hc : s.clock ≤ t) (htr : tr ≤ t)
      (hlr : s.b.lastReadStarted ≤ tr) (hp : s.pphase = PPhase.reading pl)
      (hsrc : s.src = (bs, none) :: rest) (hn : bs.length ≤ pl)
      (hw : s.b.writeError = none) :
      Step s { s with
        b := finishReadBuf s.b bs tr
        pphase := if s.b.ready + (bs.length : Int) = (s.b.buf.length : Int)
                  then PPhase.waitingFull else PPhase.loopTop
        psum := s.psum + (bs.length : Int)
        src := rest
        produced := s.produced ++ bs
        clock := t }
  /-- `ReadFrom` lines 151-155: wake from `cond.Wait` with a `writeError`
  recorded — return it. -/
  | prodWakeErr (s : Sys) (t : Nat) (w : GoError) (hc : s.clock ≤ t)
      (hp : s.pphase = PPhase.waitingFull) (hw : s.b.writeError = some w) :
      Step s { s with pphase := PPhase.done (some w), clock := t }
  /-- `ReadFrom` lines 151-156: wake from `cond.Wait` with no `writeError`
  and space available — back to the loop top. -/
  | prodWakeSpace (s : Sys) (t : Nat) (hc : s.clock ≤ t)
      (hp : s.pphase = PPhase.waitingFull) (hw : s.b.writeError = none)
      (hr : s.b.ready ≠ (s.b.buf.length : Int)) :
      Step s { s with pphase := PPhase.loopTop, clock := t }
  /-- `WriteTo` lines 168-172: lock, open the total clock if not yet open. -/
  | consEnter (s : Sys) (t : Nat) (hc : s.clock ≤ t) (hp : s.wphase = WPhase.entry) :
      Step s { s with b := startTotalClock s.b t, wphase := WPhase.loopTop, clock := t }
  /-- `WriteTo` lines 179-183: empty ring and recorded `io.EOF` — return
  `nil` (running the deferred total-clock stop). -/
  | consExitEOF (s : Sys) (t : Nat) (hc : s.clock ≤ t) (hp : s.wphase = WPhase.loopTop)
      (hr : s.b.ready = 0) (he : s.b.readError = some GoError.eof) :
      Step s { s with b := stopTotalClock s.b t, wphase := WPhase.done none, clock := t }
  /-- `WriteTo` lines 179-184: empty ring and a recorded non-EOF read error —
  return it wrapped with the read phase tag. -/
  | consExitReadErr (s : Sys) (t : Nat) (e : GoError) (hc : s.clock ≤ t)
      (hp : s.wphase = WPhase.loopTop) (hr : s.b.ready = 0)
      (he : s.b.readError = some e) (hne : e ≠ GoError.eof) :
      Step s { s with b := stopTotalClock s.b t,
                      wphase := WPhase.done (some (GoError.wrapRead e)), clock := t }
  /-- `WriteTo` lines 179-200: non-empty ring — compute the filled
  sub-range, timestamp the write phase, unlock, cap the slice at `maxWrite`,
  and enter the blocking `w.Write` call. -/
  | consStartWrite (s : Sys) (t : Nat) (hc : s.clock ≤ t) (hp : s.wphase = WPhase.loopTop)
      (hr : s.b.ready ≠ 0) :
      Step s { s with
        b := { s.b with lastWriteStarted := t }
        wphase := WPhase.writing (capSlice (consSliceFull s.b) (maxWrite s.b.buf.length))
        clock := t }
  /-- `WriteTo` lines 200-208, case `err == nil`: the write returned at
  `tr` (duration endpoint, line 201, without the lock); the commit at lock
  time `t ≥ tr` records the accepted count and loops. -/
  | consFinishWriteOk (s : Sys) (tr t : Nat) (p : List Byte) (n : Nat) (rest : List WriteRes)
      (hc : s.clock ≤ t) (htr : tr ≤ t) (hlw : s.b.lastWriteStarted ≤ tr)
      (hp : s.wphase = WPhase.writing p)
      (hsnk : s.snk = (n, none) :: rest) (hn : n ≤ p.length) :
      Step s { s with
        b := finishWriteBuf s.b n tr
        wphase := WPhase.loopTop
        wsum := s.wsum + (n : Int)
        snk := rest
        delivered := s.delivered ++ p.take n
        clock := t }
  /-- `WriteTo` lines 200-213, case `err != nil`: the write returned at
  `tr` (duration endpoint, line 201); the commit at lock time `t ≥ tr`
  records the accepted count and the wrapped write error and returns it
  (the deferred total-clock stop runs under the lock at time `t`). -/
  | consFinishWriteErr (s : Sys) (tr t : Nat) (p : List Byte) (n : Nat) (e : GoError)
      (rest : List WriteRes) (hc : s.clock ≤ t) (htr : tr ≤ t)
      (hlw : s.b.lastWriteStarted ≤ tr) (hp : s.wphase = WPhase.writing p)
      (hsnk : s.snk = (n, some e) :: rest) (hn : n ≤ p.length) :
      Step s { s with
        b := stopTotalClock { finishWriteBuf s.b n tr with
                              writeError := some (GoError.wrapWrite e) } t
        wphase := WPhase.done (some (GoError.wrapWrite e))
        wsum := s.wsum + (n : Int)
        snk := rest
        delivered := s.delivered ++ p.take n
        clock := t }
  /-- A `Stats()` observation (lines 87-109): acquires the lock at time `t`
  but changes nothing. -/
  | statsObs (s : Sys) (t : Nat) (hc : s.clock ≤ t) :
      Step s { s with clock := t }

/-- Zero or more interleaved steps. -/
def Steps : Sys → Sys → Prop := Relation.ReflTransGen Step

/-- States reachable by `Copy` on a buffer of capacity `size` against the
given source and sink scripts. -/
def Reachable (size : Nat) (src : List ReadRes) (snk : List WriteRes) (s : Sys) : Prop :=
  Steps (initSys size src snk) s

/-- Index of the next byte to be consumed, modulo the capacity (the spec's
`fillStart`; the code tracks `readIndex`, the rotating head where the
producer deposits bytes, with `fillStart = readIndex - ready (mod C)`). -/
def fillStart (b : Buffer) : Int := (b.readIndex - b.ready) % (b.buf.length : Int)

/-- The `r` bytes of a ring of capacity `C` in consumption (FIFO) order,
where `i` is the rotating head (`readIndex`): the `k`-th oldest byte sits at
index `(i + C - r + k) % C`. -/
def ringAux (buf : List Byte) (C i r : Nat) : List Byte :=
  (List.range r).map (fun k => buf.getD ((i + C - r + k) % C) 0)

/-- The FIFO contents of the ring: the `ready` buffered-but-undelivered
bytes in consumption order, starting at `fillStart`. -/
def ringContents (b : Buffer) : List Byte :=
  ringAux b.buf b.buf.length b.readIndex.toNat b.ready.toNat

/-! ## Elementary facts about `setRange` and `ringAux` -/

theorem setRange_length (bs : List Byte) : ∀ (l : List Byte) (i : Nat),
    (setRange l i bs).length = l.length := by
  induction bs with
  | nil => intro l i; rfl
  | cons c bs ih =>
    intro l i
    rw [setRange, ih, List.length_set]

theorem getD_setRange_low (bs : List Byte) : ∀ (l : List Byte) (i j : Nat), j < i →
    (setRange l i bs).getD j 0 = l.getD j 0 := by
  induction bs with
  | nil => intro l i j _; rfl
  | cons c bs ih =>
    intro l i j hj
    rw [setRange, ih _ _ _ (by omega), List.getD_eq_getElem?_getD, List.getD_eq_getElem?_getD,
      List.getElem?_set_ne (by omega)]

theorem getD_setRange_high (bs : List Byte) : ∀ (l : List Byte) (i j : Nat),
    i + bs.length ≤ j → (setRange l i bs).getD j 0 = l.getD j 0 := by
  induction bs with
  | nil => intro l i j _; rfl
  | cons c bs ih =>
    intro l i j hj
    rw [setRange, ih _ _ _ (by simp at hj ⊢; omega), List.getD_eq_getElem?_getD,
      List.getD_eq_getElem?_getD, List.getElem?_set_ne (by simp at hj; omega)]

theorem getD_setRange_mem (bs : List Byte) : ∀ (l : List Byte) (i j : Nat), i ≤ j →
    j < i + bs.length → i + bs.length ≤ l.length →
    (setRange l i bs).getD j 0 = bs.getD (j - i) 0 := by
  induction bs with
  | nil => intro l i j h1 h2 _; simp at h1 h2; omega
  | cons c bs ih =>
    intro l i j h1 h2 h3
    simp only [List.length_cons] at h2 h3
    rcases Nat.eq_or_lt_of_le h1 with rfl | hlt
    · rw [setRange, getD_setRange_low bs _ _ _ (by omega), List.getD_eq_getElem?_getD,
        List.getElem?_set_eq_of_lt _ (by omega), Nat.sub_self]
      rfl
    · rw [setRange, ih _ _ _ (by omega) (by omega) (by rw [List.length_set]; omega)]
      have hj : j - i = (j - (i + 1)) + 1 := by omega
      rw [hj]
      rfl

theorem length_ringAux (buf : List Byte) (C i r : Nat) : (ringAux buf C i r).length = r := by
  simp [ringAux]

theorem getElem_ringAux (buf : List Byte) (C i r k : Nat) (h : k < (ringAux buf C i r).length) :
    (ringAux buf C i r)[k] = buf.getD ((i + C - r + k) % C) 0 := by
  simp [ringAux]

/-- A value below `2 * C` reduces modulo `C` by at most one subtraction. -/
theorem mod_two_block {v C : Nat} (h : v < 2 * C) :
    v % C = if v < C then v else v - C := by
  rcases Nat.lt_or_ge v C with h' | h'
  · rw [Nat.mod_eq_of_lt h', if_pos h']
  · rw [Nat.mod_eq_sub_mod h', Nat.mod_eq_of_lt (by omega), if_neg (by omega)]

/-- Committing a read of `bs` at the head `i` appends `bs` to the FIFO
contents of the ring. -/
theorem ringAux_setRange (buf bs : List Byte) (C i r : Nat)
    (hbuf : buf.length = C) (hrn : r + bs.length ≤ C)
    (hin : i + bs.length ≤ C) :
    ringAux (setRange buf i bs) C ((i + bs.length) % C) (r + bs.length) =
      ringAux buf C i r ++ bs := by
  apply List.ext_getElem
  · simp [ringAux]
  intro k h1 h2
  rw [getElem_ringAux]
  have hQ : ((i + bs.length) % C + C - (r + bs.length) + k) % C = (i + C - r + k) % C := by
    have hsplit : (i + bs.length) % C + C - (r + bs.length) + k
        = (i + bs.length) % C + (C - (r + bs.length) + k) := by omega
    rw [hsplit, Nat.mod_add_mod]
    congr 1
    omega
  rw [hQ]
  rw [length_ringAux] at h1
  rcases Nat.lt_or_ge k r with hk | hk
  · rw [List.getElem_append_left (by rw [length_ringAux]; exact hk), getElem_ringAux]
    have hv2 : i + C - r + k < 2 * C := by omega
    rw [mod_two_block hv2]
    rcases Nat.lt_or_ge (i + C - r + k) C with hv | hv
    · rw [if_pos hv]
      exact getD_setRange_high bs _ _ _ (by omega)
    · rw [if_neg (by omega)]
      exact getD_setRange_low bs _ _ _ (by omega)
  · rw [List.getElem_append_right (by rw [length_ringAux]; exact hk)]
    simp only [List.length_append, length_ringAux, List.length_map, List.length_range] at h2
    have hvC : i + C - r + k = (i + (k - r)) + C := by omega
    have hQ2 : (i + C - r + k) % C = i + (k - r) := by
      rw [hvC, Nat.add_mod_right, Nat.mod_eq_of_lt (by omega)]
    rw [hQ2, getD_setRange_mem bs _ _ _ (by omega) (by omega) (by omega),
      Nat.add_sub_cancel_left, List.getD_eq_getElem _ _ (by omega)]
    congr 1
    rw [length_ringAux]

/-- Committing a write of `n` accepted bytes drops the `n` oldest bytes from
the FIFO contents of the ring. -/
theorem ringAux_drop (buf : List Byte) (C i r n : Nat) (hn : n ≤ r) (hr : r ≤ C) :
    ringAux buf C i (r - n) = (ringAux buf C i r).drop n := by
  apply List.ext_getElem
  · simp [ringAux]
  intro k h1 h2
  rw [getElem_ringAux, List.getElem_drop, getElem_ringAux]
  congr 2
  rw [length_ringAux] at h1
  omega

/-- `WriteTo`'s non-wrapping branch (`b.readIndex-b.ready >= 0`, line 190):
the computed slice is the whole FIFO contents. -/
theorem consSlice_nowrap (buf : List Byte) (C i r : Nat) (hbuf : buf.length = C)
    (hi : i < C) (hr : r ≤ i) :
    (buf.take i).drop (i - r) = ringAux buf C i r := by
  apply List.ext_getElem
  · simp [ringAux, hbuf]
    omega
  intro k h1 h2
  rw [getElem_ringAux, List.getElem_drop, List.getElem_take, List.getD_eq_getElem _ _ ?hb]
  case hb =>
    rw [hbuf]
    simp only [List.length_drop, List.length_take] at h1
    have hv : (i + C - r + k) % C = i - r + k := by
      rw [(by omega : i + C - r + k = (i - r + k) + C), Nat.add_mod_right,
        Nat.mod_eq_of_lt (by omega)]
    omega
  congr 1
  simp only [List.length_drop, List.length_take] at h1
  rw [(by omega : i + C - r + k = (i - r + k) + C), Nat.add_mod_right,
    Nat.mod_eq_of_lt (by omega)]

/-- `WriteTo`'s wrapping branch (`b.readIndex-b.ready < 0`, line 192): the
computed slice is the first contiguous part of the FIFO contents. -/
theorem consSlice_wrap (buf : List Byte) (C i r : Nat) (hbuf : buf.length = C)
    (hi : i < C) (hir : i < r) (hr : r ≤ C) :
    buf.drop (i + C - r) = (ringAux buf C i r).take (r - i) := by
  apply List.ext_getElem
  · simp [ringAux, hbuf]
    omega
  intro k h1 h2
  simp only [List.length_drop, hbuf] at h1
  rw [List.getElem_take, getElem_ringAux, List.getElem_drop,
    List.getD_eq_getElem _ _ (by rw [hbuf, Nat.mod_eq_of_lt (by omega)]; omega)]
  congr 1
  rw [Nat.mod_eq_of_lt (by omega)]

/-! ## Bridging the `Buffer` fields to the `Nat`-level ring lemmas -/

theorem ringContents_congr (a c : Buffer) (h1 : c.buf = a.buf)
    (h2 : c.readIndex = a.readIndex) (h3 : c.ready = a.ready) :
    ringContents c = ringContents a := by
  simp [ringContents, h1, h2, h3]

theorem length_ringContents (b : Buffer) : (ringContents b).length = b.ready.toNat := by
  simp [ringContents, ringAux]

theorem ringContents_finishRead (b : Buffer) (bs : List Byte) (t : Nat)
    (hri0 : 0 ≤ b.readIndex) (hr0 : 0 ≤ b.ready)
    (hrn : b.ready + (bs.length : Int) ≤ (b.buf.length : Int))
    (hin : b.readIndex + (bs.length : Int) ≤ (b.buf.length : Int)) :
    ringContents (finishReadBuf b bs t) = ringContents b ++ bs := by
  obtain ⟨i, hi⟩ : ∃ i : Nat, b.readIndex = (i : Int) :=
    ⟨b.readIndex.toNat, (Int.toNat_of_nonneg hri0).symm⟩
  obtain ⟨r, hr⟩ : ∃ r : Nat, b.ready = (r : Int) :=
    ⟨b.ready.toNat, (Int.toNat_of_nonneg hr0).symm⟩
  have hrnN : r + bs.length ≤ b.buf.length := by rw [hr] at hrn; exact_mod_cast hrn
  have hinN : i + bs.length ≤ b.buf.length := by rw [hi] at hin; exact_mod_cast hin
  have h1 : (finishReadBuf b bs t).buf = setRange b.buf i bs := by
    simp [finishReadBuf, hi]
  have h2 : (finishReadBuf b bs t).buf.length = b.buf.length := by
    rw [h1, setRange_length]
  have h3 : (finishReadBuf b bs t).readIndex.toNat = (i + bs.length) % b.buf.length := by
    simp only [finishReadBuf, hi]
    rw [← Int.ofNat_add, ← Int.ofNat_emod, Int.toNat_natCast]
  have h4 : (finishReadBuf b bs t).ready.toNat = r + bs.length := by
    simp only [finishReadBuf, hr]
    rw [← Int.ofNat_add, Int.toNat_natCast]
  rw [ringContents, h1, setRange_length, h3, h4, ringContents, hi, hr, Int.toNat_natCast,
    Int.toNat_natCast]
  exact ringAux_setRange b.buf bs b.buf.length i r rfl hrnN hinN

theorem ringContents_finishWrite (b : Buffer) (n t : Nat)
    (hn : (n : Int) ≤ b.ready) (hrC : b.ready ≤ (b.buf.length : Int)) :
    ringContents (finishWriteBuf b n t) = (ringContents b).drop n := by
  have hr0 : 0 ≤ b.ready := le_trans (by exact_mod_cast Nat.zero_le n) hn
  obtain ⟨r, hr⟩ : ∃ r : Nat, b.ready = (r : Int) :=
    ⟨b.ready.toNat, (Int.toNat_of_nonneg hr0).symm⟩
  have h4 : (finishWriteBuf b n t).ready.toNat = r - n := by
    simp only [finishWriteBuf, hr]
    omega
  rw [ringContents, h4, ringContents]
  have : (finishWriteBuf b n t).buf = b.buf := rfl
  rw [this]
  have : (finishWriteBuf b n t).readIndex = b.readIndex := rfl
  rw [this, hr, Int.toNat_natCast]
  exact ringAux_drop b.buf b.buf.length b.readIndex.toNat r n (by omega) (by omega)

theorem consSliceFull_eq_take (b : Buffer)
    (hri0 : 0 ≤ b.readIndex) (hriC : b.readIndex < (b.buf.length : Int))
    (hr0 : 0 ≤ b.ready) (hrC : b.ready ≤ (b.buf.length : Int)) :
    consSliceFull b = (ringContents b).take (consSliceLen b).toNat := by
  obtain ⟨i, hi⟩ : ∃ i : Nat, b.readIndex = (i : Int) :=
    ⟨b.readIndex.toNat, (Int.toNat_of_nonneg hri0).symm⟩
  obtain ⟨r, hr⟩ : ∃ r : Nat, b.ready = (r : Int) :=
    ⟨b.ready.toNat, (Int.toNat_of_nonneg hr0).symm⟩
  have hiC : i < b.buf.length := by rw [hi] at hriC; exact_mod_cast hriC
  have hrCn : r ≤ b.buf.length := by rw [hr] at hrC; exact_mod_cast hrC
  rw [consSliceFull, consSliceLen, ringContents, hi, hr, Int.toNat_natCast, Int.toNat_natCast]
  by_cases hcase : (i : Int) - (r : Int) ≥ 0
  · rw [if_pos hcase, if_pos hcase, goSlice]
    have hri : ((i : Int) - (r : Int)).toNat = i - r := by omega
    have hrn : ((i : Int)).toNat = i := Int.toNat_natCast i
    rw [hri, hrn]
    have hle : r ≤ i := by omega
    have htake : (ringAux b.buf b.buf.length i r).take r = ringAux b.buf b.buf.length i r :=
      List.take_of_length_le (by rw [length_ringAux])
    rw [Int.toNat_natCast, consSlice_nowrap b.buf b.buf.length i r rfl hiC hle, htake]
  · rw [if_neg hcase, if_neg hcase, goSlice]
    have h1 : ((i : Int) - (r : Int) + (b.buf.length : Int)).toNat = i + b.buf.length - r := by
      omega
    have h2 : ((b.buf.length : Int)).toNat = b.buf.length := Int.toNat_natCast _
    have h3 : ((b.buf.length : Int) - ((i : Int) - (r : Int) + (b.buf.length : Int))).toNat
        = r - i := by omega
    rw [h1, h2, h3, List.take_of_length_le (le_refl b.buf.length)]
    exact consSlice_wrap b.buf b.buf.length i r rfl hiC (by omega) hrCn

theorem maxWrite_pos (size : Nat) : 1 ≤ maxWrite size := by
  unfold maxWrite
  split <;> omega

theorem maxWrite_eq_max (size : Nat) : maxWrite size = max 1 (size / 8) := by
  unfold maxWrite
  split <;> omega

theorem capSlice_eq (l : List Byte) (m : Nat) : capSlice l m = l.take (min m l.length) := by
  unfold capSlice
  split
  · congr 1
    omega
  · rw [min_eq_right (by omega), List.take_length]

/-- Properties of the capped slice `WriteTo` passes to `w.Write`, at the
moment it is computed (lines 188-199): it is a non-empty initial segment of
the FIFO contents whose length is at most `maxWrite` and at most `ready`. -/
theorem consPending_props (b : Buffer)
    (hri0 : 0 ≤ b.readIndex) (hriC : b.readIndex < (b.buf.length : Int))
    (hr1 : 0 < b.ready) (hrC : b.ready ≤ (b.buf.length : Int)) :
    capSlice (consSliceFull b) (maxWrite b.buf.length)
      = (ringContents b).take (capSlice (consSliceFull b) (maxWrite b.buf.length)).length
    ∧ 1 ≤ (capSlice (consSliceFull b) (maxWrite b.buf.length)).length
    ∧ ((capSlice (consSliceFull b) (maxWrite b.buf.length)).length : Int) ≤ b.ready
    ∧ (capSlice (consSliceFull b) (maxWrite b.buf.length)).length ≤ maxWrite b.buf.length := by
  have hL1 : 1 ≤ (consSliceLen b).toNat := by
    unfold consSliceLen
    split <;> omega
  have hLr : ((consSliceLen b).toNat : Int) ≤ b.ready := by
    unfold consSliceLen
    split <;> omega
  have hm := maxWrite_pos b.buf.length
  rw [consSliceFull_eq_take b hri0 hriC (le_of_lt hr1) hrC, capSlice_eq, List.take_take,
    List.length_take, List.length_take, length_ringContents]
  have hrtoNat : ((b.ready.toNat : Nat) : Int) = b.ready := Int.toNat_of_nonneg (le_of_lt hr1)
  refine ⟨?_, by omega, by omega, by omega⟩
  congr 1
  omega

/-! ## The global invariant -/

/-- The global invariant of the interleaved execution, for a buffer of
capacity `size` run against an initial sink script `snk0`.  Beyond the
numeric ring bounds it carries the FIFO ghost equation
(`delivered ++ ringContents = produced`), the meaning of each control
location, and the error-propagation facts relating the recorded
`readError`/`writeError` to the values each side returns. -/
structure SysInv (size : Nat) (snk0 : List WriteRes) (s : Sys) : Prop where
  hsize : 1 ≤ size
  hbuf : s.b.buf.length = size
  hri0 : 0 ≤ s.b.readIndex
  hriC : s.b.readIndex < (size : Int)
  hr0 : 0 ≤ s.b.ready
  hrC : s.b.ready ≤ (size : Int)
  hfifo : s.delivered ++ ringContents s.b = s.produced
  hwsum : s.wsum = (s.delivered.length : Int)
  hentry : s.pphase = PPhase.entry → s.b.ready = 0
  hloop : s.pphase = PPhase.loopTop → s.b.ready < (size : Int)
  hreading : ∀ pl, s.pphase = PPhase.reading pl →
    1 ≤ pl ∧ (pl : Int) ≤ (size : Int) - s.b.readIndex ∧ (pl : Int) ≤ (size : Int) - s.b.ready
  hwriting : ∀ p, s.wphase = WPhase.writing p →
    p = (ringContents s.b).take p.length ∧ 1 ≤ p.length ∧ (p.length : Int) ≤ s.b.ready ∧
    p.length ≤ maxWrite size
  hwerr : s.b.writeError ≠ none →
    s.wphase = WPhase.done s.b.writeError ∧ ∃ e, s.b.writeError = some (GoError.wrapWrite e)
  hrerr : s.b.readError ≠ none → ∃ res, s.pphase = PPhase.done res
  hpdone : ∀ res, s.pphase = PPhase.done res →
    (res = none ∧ s.b.readError = some GoError.eof) ∨
    (∃ e, res = some e ∧ s.b.readError = some e ∧ e ≠ GoError.eof) ∨
    (∃ e, res = some e ∧ s.b.writeError = some e ∧ s.b.readError = none)
  hwdone : ∀ res, s.wphase = WPhase.done res →
    (res = none ∧ s.b.readError = some GoError.eof ∧ s.b.ready = 0 ∧ s.b.writeError = none) ∨
    (∃ e, res = some (GoError.wrapRead e) ∧ s.b.readError = some e ∧ e ≠ GoError.eof) ∨
    (∃ e, res = some e ∧ s.b.writeError = some e)
  hlrs : s.b.lastReadStarted ≠ 0 → ∃ pl, s.pphase = PPhase.reading pl
  hlws : s.b.lastWriteStarted ≠ 0 → ∃ p, s.wphase = WPhase.writing p
  hsnk : ∃ pre, pre ++ s.snk = snk0
  hwclean : (∀ q ∈ snk0, q.2 = none) → s.b.writeError = none

theorem inv_init (size : Nat) (hsz : 1 ≤ size) (src : List ReadRes) (snk : List WriteRes) :
    SysInv size snk (initSys size src snk) := by
  refine {
    hsize := hsz
    hbuf := by simp [initSys, New]
    hri0 := le_refl 0
    hriC := by show (0 : Int) < (size : Int); exact_mod_cast hsz
    hr0 := le_refl 0
    hrC := by show (0 : Int) ≤ (size : Int); exact_mod_cast Nat.zero_le size
    hfifo := by simp [initSys, New, ringContents, ringAux]
    hwsum := rfl
    hentry := fun _ => rfl
    hloop := by intro h; simp [initSys] at h
    hreading := by intro pl h; simp [initSys] at h
    hwriting := by intro p h; simp [initSys] at h
    hwerr := by intro h; exact absurd rfl h
    hrerr := by intro h; exact absurd rfl h
    hpdone := by intro res h; simp [initSys] at h
    hwdone := by intro res h; simp [initSys] at h
    hlrs := by intro h; exact absurd rfl h
    hlws := by intro h; exact absurd rfl h
    hsnk := ⟨[], rfl⟩
    hwclean := fun _ => rfl }

/-- Consequences of committing a read (`finishReadBuf`) under the ring
bounds. -/
theorem finishReadBuf_inv (size : Nat) (b : Buffer) (bs : List Byte) (t : Nat)
    (hsz : 1 ≤ size) (hbuf : b.buf.length = size) (hri0 : 0 ≤ b.readIndex)
    (hr0 : 0 ≤ b.ready)
    (hin : b.readIndex + (bs.length : Int) ≤ (size : Int))
    (hrn : b.ready + (bs.length : Int) ≤ (size : Int)) :
    (finishReadBuf b bs t).buf.length = size ∧
    0 ≤ (finishReadBuf b bs t).readIndex ∧
    (finishReadBuf b bs t).readIndex < (size : Int) ∧
    ringContents (finishReadBuf b bs t) = ringContents b ++ bs := by
  have hbl : (b.buf.length : Int) = (size : Int) := by exact_mod_cast hbuf
  have hCpos : (0 : Int) < (b.buf.length : Int) := by rw [hbl]; exact_mod_cast hsz
  refine ⟨?_, ?_, ?_, ?_⟩
  · show (setRange b.buf b.readIndex.toNat bs).length = size
    rw [setRange_length]
    exact hbuf
  · exact Int.emod_nonneg _ (ne_of_gt hCpos)
  · show (b.readIndex + (bs.length : Int)) % (b.buf.length : Int) < (size : Int)
    rw [hbl]
    exact Int.emod_lt_of_pos _ (by exact_mod_cast hsz)
  · exact ringContents_finishRead b bs t hri0 hr0 (by rw [hbl]; exact hrn)
      (by rw [hbl]; exact hin)

/-- Bounds of the slice length computed at the top of `ReadFrom`'s loop
(lines 119-126) when the ring is not full. -/
theorem prodSliceLen_facts (size : Nat) (b : Buffer)
    (hbuf : b.buf.length = size) (hri0 : 0 ≤ b.readIndex) (hriC : b.readIndex < (size : Int))
    (hr0 : 0 ≤ b.ready) (hrlt : b.ready < (size : Int)) :
    1 ≤ (prodSliceLen b).toNat ∧ ((prodSliceLen b).toNat : Int) ≤ (size : Int) - b.readIndex ∧
    ((prodSliceLen b).toNat : Int) ≤ (size : Int) - b.ready := by
  have hbl : (b.buf.length : Int) = (size : Int) := by exact_mod_cast hbuf
  unfold prodSliceLen prodUntil
  rw [hbl]
  split <;> (refine ⟨?_, ?_, ?_⟩ <;> omega)

set_option maxHeartbeats 1000000 in
/-- Every step of the interleaved execution preserves the invariant. -/
theorem inv_step {size : Nat} {snk0 : List WriteRes} {s s' : Sys}
    (hinv : SysInv size snk0 s) (hstep : Step s s') : SysInv size snk0 s' := by
  obtain ⟨Isize, Ibuf, Iri0, IriC, Ir0, IrC, Ififo, Iwsum, Ientry, Iloop, Ireading, Iwriting,
    Iwerr, Irerr, Ipdone, Iwdone, Ilrs, Ilws, Isnk, Iwclean⟩ := hinv
  have hbl : (s.b.buf.length : Int) = (size : Int) := by exact_mod_cast Ibuf
  cases hstep with
  | prodEnter t hc hp =>
    exact {
      hsize := Isize
      hbuf := Ibuf
      hri0 := Iri0
      hriC := IriC
      hr0 := Ir0
      hrC := IrC
      hfifo := Ififo
      hwsum := Iwsum
      hentry := by intro h; simp at h
      hloop := by
        intro _
        show s.b.ready < (size : Int)
        rw [Ientry hp]
        exact_mod_cast Isize
      hreading := by intro pl h; simp at h
      hwriting := Iwriting
      hwerr := Iwerr
      hrerr := by
        intro h
        obtain ⟨res, hres⟩ := Irerr h
        rw [hp] at hres
        simp at hres
      hpdone := by intro res h; simp at h
      hwdone := Iwdone
      hlrs := by
        intro h
        obtain ⟨pl, hpl⟩ := Ilrs h
        rw [hp] at hpl
        simp at hpl
      hlws := Ilws
      hsnk := Isnk
      hwclean := Iwclean }
  | prodStartRead t hc hp =>
    exact {
      hsize := Isize
      hbuf := Ibuf
      hri0 := Iri0
      hriC := IriC
      hr0 := Ir0
      hrC := IrC
      hfifo := Ififo
      hwsum := Iwsum
      hentry := by intro h; simp at h
      hloop := by intro h; simp at h
      hreading := by
        intro pl h
        injection h with h2
        subst h2
        exact prodSliceLen_facts size s.b Ibuf Iri0 IriC Ir0 (Iloop hp)
      hwriting := Iwriting
      hwerr := Iwerr
      hrerr := by
        intro h
        obtain ⟨res, hres⟩ := Irerr h
        rw [hp] at hres
        simp at hres
      hpdone := by intro res h; simp at h
      hwdone := Iwdone
      hlrs := by intro _; exact ⟨(prodSliceLen s.b).toNat, rfl⟩
      hlws := Ilws
      hsnk := Isnk
      hwclean := Iwclean }
  | prodFinishReadErr tr t pl bs e rest hc htr hlr hp hsrc hn =>
    obtain ⟨hpl1, hpl2, hpl3⟩ := Ireading pl hp
    have hnI : ((bs.length : Nat) : Int) ≤ (pl : Int) := by exact_mod_cast hn
    obtain ⟨F1, F2, F3, F4⟩ := finishReadBuf_inv size s.b bs tr Isize Ibuf Iri0 Ir0
      (by omega) (by omega)
    have hre : s.b.readError = none := by
      cases hcase : s.b.readError with
      | none => rfl
      | some x =>
        obtain ⟨res, hres⟩ := Irerr (by rw [hcase]; simp)
        rw [hp] at hres
        simp at hres
    exact {
      hsize := Isize
      hbuf := F1
      hri0 := F2
      hriC := F3
      hr0 := by show 0 ≤ s.b.ready + (bs.length : Int); omega
      hrC := by show s.b.ready + (bs.length : Int) ≤ (size : Int); omega
      hfifo := by
        show s.delivered ++ ringContents (finishReadBuf s.b bs tr) = s.produced ++ bs
        rw [F4, ← List.append_assoc, Ififo]
      hwsum := Iwsum
      hentry := by intro h; simp at h
      hloop := by intro h; simp at h
      hreading := by intro pl2 h; simp at h
      hwriting := by
        intro p h
        obtain ⟨hw1, hw2, hw3, hw4⟩ := Iwriting p h
        refine ⟨?_, hw2, ?_, hw4⟩
        · show p = (ringContents (finishReadBuf s.b bs tr)).take p.length
          rw [F4, List.take_append_of_le_length (by rw [length_ringContents]; omega)]
          exact hw1
        · show (p.length : Int) ≤ s.b.ready + (bs.length : Int)
          omega
      hwerr := Iwerr
      hrerr := by intro _; exact ⟨_, rfl⟩
      hpdone := by
        intro res h
        injection h with h2
        subst h2
        by_cases he : e = GoError.eof
        · left
          subst he
          exact ⟨by simp, rfl⟩
        · right; left
          exact ⟨e, by simp [he], rfl, he⟩
      hwdone := by
        intro res h
        rcases Iwdone res h with ⟨d1, d2, d3, d4⟩ | ⟨e2, d1, d2, d3⟩ | ⟨e2, d1, d2⟩
        · obtain ⟨res2, hres2⟩ := Irerr (by rw [d2]; simp)
          rw [hp] at hres2
          simp at hres2
        · obtain ⟨res2, hres2⟩ := Irerr (by rw [d2]; simp)
          rw [hp] at hres2
          simp at hres2
        · right; right
          exact ⟨e2, d1, d2⟩
      hlrs := by intro h; exact absurd rfl h
      hlws := Ilws
      hsnk := Isnk
      hwclean := Iwclean }
  | prodFinishReadWErr tr t pl bs w rest hc htr hlr hp hsrc hn hw =>
    obtain ⟨hpl1, hpl2, hpl3⟩ := Ireading pl hp
    have hnI : ((bs.length : Nat) : Int) ≤ (pl : Int) := by exact_mod_cast hn
    obtain ⟨F1, F2, F3, F4⟩ := finishReadBuf_inv size s.b bs tr Isize Ibuf Iri0 Ir0
      (by omega) (by omega)
    have hre : s.b.readError = none := by
      cases hcase : s.b.readError with
      | none => rfl
      | some x =>
        obtain ⟨res, hres⟩ := Irerr (by rw [hcase]; simp)
        rw [hp] at hres
        simp at hres
    exact {
      hsize := Isize
      hbuf := F1
      hri0 := F2
      hriC := F3
      hr0 := by show 0 ≤ s.b.ready + (bs.length : Int); omega
      hrC := by show s.b.ready + (bs.length : Int) ≤ (size : Int); omega
      hfifo := by
        show s.delivered ++ ringContents (finishReadBuf s.b bs tr) = s.produced ++ bs
        rw [F4, ← List.append_assoc, Ififo]
      hwsum := Iwsum
      hentry := by intro h; simp at h
      hloop := by intro h; simp at h
      hreading := by intro pl2 h; simp at h
      hwriting := by
        intro p h
        obtain ⟨hw1, hw2, hw3, hw4⟩ := Iwriting p h
        refine ⟨?_, hw2, ?_, hw4⟩
        · show p = (ringContents (finishReadBuf s.b bs tr)).take p.length
          rw [F4, List.take_append_of_le_length (by rw [length_ringContents]; omega)]
          exact hw1
        · show (p.length : Int) ≤ s.b.ready + (bs.length : Int)
          omega
      hwerr := Iwerr
      hrerr := by intro _; exact ⟨_, rfl⟩
      hpdone := by
        intro res h
        injection h with h2
        subst h2
        right; right
        exact ⟨w, rfl, hw, hre⟩
      hwdone := by
        intro res h
        rcases Iwdone res h with ⟨d1, d2, d3, d4⟩ | ⟨e2, d1, d2, d3⟩ | ⟨e2, d1, d2⟩
        · rw [hre] at d2
          simp at d2
        · rw [hre] at d2
          simp at d2
        · right; right
          exact ⟨e2, d1, d2⟩
      hlrs := by intro h; exact absurd rfl h
      hlws := Ilws
      hsnk := Isnk
      hwclean := Iwclean }
  | prodFinishReadOk tr t pl bs rest hc htr hlr hp hsrc hn hw =>
    obtain ⟨hpl1, hpl2, hpl3⟩ := Ireading pl hp
    have hnI : ((bs.length : Nat) : Int) ≤ (pl : Int) := by exact_mod_cast hn
    obtain ⟨F1, F2, F3, F4⟩ := finishReadBuf_inv size s.b bs tr Isize Ibuf Iri0 Ir0
      (by omega) (by omega)
    have hre : s.b.readError = none := by
      cases hcase : s.b.readError with
      | none => rfl
      | some x =>
        obtain ⟨res, hres⟩ := Irerr (by rw [hcase]; simp)
        rw [hp] at hres
        simp at hres
    exact {
      hsize := Isize
      hbuf := F1
      hri0 := F2
      hriC := F3
      hr0 := by show 0 ≤ s.b.ready + (bs.length : Int); omega
      hrC := by show s.b.ready + (bs.length : Int) ≤ (size : Int); omega
      hfifo := by
        show s.delivered ++ ringContents (finishReadBuf s.b bs tr) = s.produced ++ bs
        rw [F4, ← List.append_assoc, Ififo]
      hwsum := Iwsum
      hentry := by intro h; split at h <;> simp at h
      hloop := by
        intro h
        split at h
        · simp at h
        · next hne =>
          rw [hbl] at hne
          show s.b.ready + (bs.length : Int) < (size : Int)
          omega
      hreading := by intro pl2 h; split at h <;> simp at h
      hwriting := by
        intro p h
        obtain ⟨hw1, hw2, hw3, hw4⟩ := Iwriting p h
        refine ⟨?_, hw2, ?_, hw4⟩
        · show p = (ringContents (finishReadBuf s.b bs tr)).take p.length
          rw [F4, List.take_append_of_le_length (by rw [length_ringContents]; omega)]
          exact hw1
        · show (p.length : Int) ≤ s.b.ready + (bs.length : Int)
          omega
      hwerr := Iwerr
      hrerr := by
        intro h
        obtain ⟨res, hres⟩ := Irerr h
        rw [hp] at hres
        simp at hres
      hpdone := by intro res h; split at h <;> simp at h
      hwdone := by
        intro res h
        rcases Iwdone res h with ⟨d1, d2, d3, d4⟩ | ⟨e2, d1, d2, d3⟩ | ⟨e2, d1, d2⟩
        · rw [hre] at d2
          simp at d2
        · rw [hre] at d2
          simp at d2
        · right; right
          exact ⟨e2, d1, d2⟩
      hlrs := by intro h; exact absurd rfl h
      hlws := Ilws
      hsnk := Isnk
      hwclean := Iwclean }
  | prodWakeErr t w hc hp hw =>
    exact {
      hsize := Isize
      hbuf := Ibuf
      hri0 := Iri0
      hriC := IriC
      hr0 := Ir0
      hrC := IrC
      hfifo := Ififo
      hwsum := Iwsum
      hentry := by intro h; simp at h
      hloop := by intro h; simp at h
      hreading := by intro pl h; simp at h
      hwriting := Iwriting
      hwerr := Iwerr
      hrerr := by intro _; exact ⟨_, rfl⟩
      hpdone := by
        intro res h
        injection h with h2
        subst h2
        right; right
        refine ⟨w, rfl, hw, ?_⟩
        cases hcase : s.b.readError with
        | none => rfl
        | some x =>
          obtain ⟨res2, hres2⟩ := Irerr (by rw [hcase]; simp)
          rw [hp] at hres2
          simp at hres2
      hwdone := Iwdone
      hlrs := by
        intro h
        obtain ⟨pl, hpl⟩ := Ilrs h
        rw [hp] at hpl
        simp at hpl
      hlws := Ilws
      hsnk := Isnk
      hwclean := Iwclean }
  | prodWakeSpace t hc hp hw hr =>
    exact {
      hsize := Isize
      hbuf := Ibuf
      hri0 := Iri0
      hriC := IriC
      hr0 := Ir0
      hrC := IrC
      hfifo := Ififo
      hwsum := Iwsum
      hentry := by intro h; simp at h
      hloop := by
        intro _
        show s.b.ready < (size : Int)
        rw [hbl] at hr
        omega
      hreading := by intro pl h; simp at h
      hwriting := Iwriting
      hwerr := Iwerr
      hrerr := by
        intro h
        obtain ⟨res, hres⟩ := Irerr h
        rw [hp] at hres
        simp at hres
      hpdone := by intro res h; simp at h
      hwdone := Iwdone
      hlrs := by
        intro h
        obtain ⟨pl, hpl⟩ := Ilrs h
        rw [hp] at hpl
        simp at hpl
      hlws := Ilws
      hsnk := Isnk
      hwclean := Iwclean }
  | consEnter t hc hp =>
    exact {
      hsize := Isize
      hbuf := Ibuf
      hri0 := Iri0
      hriC := IriC
      hr0 := Ir0
      hrC := IrC
      hfifo := Ififo
      hwsum := Iwsum
      hentry := Ientry
      hloop := Iloop
      hreading := Ireading
      hwriting := by intro p h; simp at h
      hwerr := by
        intro h
        have h2 := (Iwerr h).1
        rw [hp] at h2
        simp at h2
      hrerr := Irerr
      hpdone := Ipdone
      hwdone := by intro res h; simp at h
      hlrs := Ilrs
      hlws := by
        intro h
        obtain ⟨p, hp2⟩ := Ilws h
        rw [hp] at hp2
        simp at hp2
      hsnk := Isnk
      hwclean := Iwclean }
  | consExitEOF t hc hp hr he =>
    have hwe : s.b.writeError = none := by
      cases hcase : s.b.writeError with
      | none => rfl
      | some x =>
        have h2 := (Iwerr (by rw [hcase]; simp)).1
        rw [hp] at h2
        simp at h2
    exact {
      hsize := Isize
      hbuf := Ibuf
      hri0 := Iri0
      hriC := IriC
      hr0 := Ir0
      hrC := IrC
      hfifo := Ififo
      hwsum := Iwsum
      hentry := Ientry
      hloop := Iloop
      hreading := Ireading
      hwriting := by intro p h; simp at h
      hwerr := by
        intro h
        have h2 : s.b.writeError ≠ none := h
        rw [hwe] at h2
        exact absurd rfl h2
      hrerr := Irerr
      hpdone := Ipdone
      hwdone := by
        intro res h
        injection h with h2
        subst h2
        left
        exact ⟨rfl, he, hr, hwe⟩
      hlrs := Ilrs
      hlws := by
        intro h
        obtain ⟨p, hp2⟩ := Ilws h
        rw [hp] at hp2
        simp at hp2
      hsnk := Isnk
      hwclean := Iwclean }
  | consExitReadErr t e hc hp hr he hne =>
    have hwe : s.b.writeError = none := by
      cases hcase : s.b.writeError with
      | none => rfl
      | some x =>
        have h2 := (Iwerr (by rw [hcase]; simp)).1
        rw [hp] at h2
        simp at h2
    exact {
      hsize := Isize
      hbuf := Ibuf
      hri0 := Iri0
      hriC := IriC
      hr0 := Ir0
      hrC := IrC
      hfifo := Ififo
      hwsum := Iwsum
      hentry := Ientry
      hloop := Iloop
      hreading := Ireading
      hwriting := by intro p h; simp at h
      hwerr := by
        intro h
        have h2 : s.b.writeError ≠ none := h
        rw [hwe] at h2
        exact absurd rfl h2
      hrerr := Irerr
      hpdone := Ipdone
      hwdone := by
        intro res h
        injection h with h2
        subst h2
        right; left
        exact ⟨e, rfl, he, hne⟩
      hlrs := Ilrs
      hlws := by
        intro h
        obtain ⟨p, hp2⟩ := Ilws h
        rw [hp] at hp2
        simp at hp2
      hsnk := Isnk
      hwclean := Iwclean }
  | consStartWrite t hc hp hr =>
    exact {
      hsize := Isize
      hbuf := Ibuf
      hri0 := Iri0
      hriC := IriC
      hr0 := Ir0
      hrC := IrC
      hfifo := Ififo
      hwsum := Iwsum
      hentry := Ientry
      hloop := Iloop
      hreading := Ireading
      hwriting := by
        intro p h
        injection h with h2
        subst h2
        obtain ⟨q1, q2, q3, q4⟩ := consPending_props s.b Iri0 (by rw [hbl]; exact IriC)
          (by omega) (by rw [hbl]; exact IrC)
        refine ⟨q1, q2, q3, ?_⟩
        rw [← Ibuf]
        exact q4
      hwerr := by
        intro h
        have h2 := (Iwerr h).1
        rw [hp] at h2
        simp at h2
      hrerr := Irerr
      hpdone := Ipdone
      hwdone := by intro res h; simp at h
      hlrs := Ilrs
      hlws := by intro _; exact ⟨_, rfl⟩
      hsnk := Isnk
      hwclean := Iwclean }
  | consFinishWriteOk tr t p n rest hc htr hlw hp hsnk hn =>
    obtain ⟨hw1, hw2, hw3, hw4⟩ := Iwriting p hp
    have hnI : ((n : Nat) : Int) ≤ (p.length : Int) := by exact_mod_cast hn
    have hringW : ringContents (finishWriteBuf s.b n tr) = (ringContents s.b).drop n :=
      ringContents_finishWrite s.b n tr (by omega) (by rw [hbl]; exact IrC)
    exact {
      hsize := Isize
      hbuf := Ibuf
      hri0 := Iri0
      hriC := IriC
      hr0 := by show 0 ≤ s.b.ready - (n : Int); omega
      hrC := by show s.b.ready - (n : Int) ≤ (size : Int); omega
      hfifo := by
        show (s.delivered ++ p.take n) ++ ringContents (finishWriteBuf s.b n tr) = s.produced
        rw [hringW, List.append_assoc]
        have hptake : p.take n = (ringContents s.b).take n := by
          conv_lhs => rw [hw1]
          rw [List.take_take, min_eq_left hn]
        rw [hptake, List.take_append_drop]
        exact Ififo
      hwsum := by
        show s.wsum + (n : Int) = ((s.delivered ++ p.take n).length : Int)
        rw [List.length_append, List.length_take, min_eq_left hn]
        push_cast
        omega
      hentry := by
        intro h
        have h2 := Ientry h
        omega
      hloop := by
        intro h
        have h2 := Iloop h
        show s.b.ready - (n : Int) < (size : Int)
        omega
      hreading := by
        intro pl h
        obtain ⟨a1, a2, a3⟩ := Ireading pl h
        refine ⟨a1, a2, ?_⟩
        show (pl : Int) ≤ (size : Int) - (s.b.ready - (n : Int))
        omega
      hwriting := by intro p2 h; simp at h
      hwerr := by
        intro h
        have h2 := (Iwerr h).1
        rw [hp] at h2
        simp at h2
      hrerr := Irerr
      hpdone := Ipdone
      hwdone := by intro res h; simp at h
      hlrs := Ilrs
      hlws := by intro h; exact absurd rfl h
      hsnk := by
        obtain ⟨pre, hpre⟩ := Isnk
        refine ⟨pre ++ [(n, none)], ?_⟩
        rw [List.append_assoc]
        rw [hsnk] at hpre
        exact hpre
      hwclean := Iwclean }
  | consFinishWriteErr tr t p n e rest hc htr hlw hp hsnk hn =>
    obtain ⟨hw1, hw2, hw3, hw4⟩ := Iwriting p hp
    have hnI : ((n : Nat) : Int) ≤ (p.length : Int) := by exact_mod_cast hn
    have hringW : ringContents (finishWriteBuf s.b n tr) = (ringContents s.b).drop n :=
      ringContents_finishWrite s.b n tr (by omega) (by rw [hbl]; exact IrC)
    exact {
      hsize := Isize
      hbuf := Ibuf
      hri0 := Iri0
      hriC := IriC
      hr0 := by show 0 ≤ s.b.ready - (n : Int); omega
      hrC := by show s.b.ready - (n : Int) ≤ (size : Int); omega
      hfifo := by
        show (s.delivered ++ p.take n) ++ ringContents (finishWriteBuf s.b n tr) = s.produced
        rw [hringW, List.append_assoc]
        have hptake : p.take n = (ringContents s.b).take n := by
          conv_lhs => rw [hw1]
          rw [List.take_take, min_eq_left hn]
        rw [hptake, List.take_append_drop]
        exact Ififo
      hwsum := by
        show s.wsum + (n : Int) = ((s.delivered ++ p.take n).length : Int)
        rw [List.length_append, List.length_take, min_eq_left hn]
        push_cast
        omega
      hentry := by
        intro h
        have h2 := Ientry h
        omega
      hloop := by
        intro h
        have h2 := Iloop h
        show s.b.ready - (n : Int) < (size : Int)
        omega
      hreading := by
        intro pl h
        obtain ⟨a1, a2, a3⟩ := Ireading pl h
        refine ⟨a1, a2, ?_⟩
        show (pl : Int) ≤ (size : Int) - (s.b.ready - (n : Int))
        omega
      hwriting := by intro p2 h; simp at h
      hwerr := by intro _; exact ⟨rfl, e, rfl⟩
      hrerr := Irerr
      hpdone := by
        intro res h
        rcases Ipdone res h with ⟨d1, d2⟩ | ⟨e2, d1, d2, d3⟩ | ⟨e2, d1, d2, d3⟩
        · left
          exact ⟨d1, d2⟩
        · right; left
          exact ⟨e2, d1, d2, d3⟩
        · have h2 := (Iwerr (by rw [d2]; simp)).1
          rw [hp] at h2
          simp at h2
      hwdone := by
        intro res h
        injection h with h2
        subst h2
        right; right
        exact ⟨GoError.wrapWrite e, rfl, rfl⟩
      hlrs := Ilrs
      hlws := by intro h; exact absurd rfl h
      hsnk := by
        obtain ⟨pre, hpre⟩ := Isnk
        refine ⟨pre ++ [(n, some e)], ?_⟩
        rw [List.append_assoc]
        rw [hsnk] at hpre
        exact hpre
      hwclean := by
        intro hcl
        obtain ⟨pre, hpre⟩ := Isnk
        rw [hsnk] at hpre
        have hmem : (n, some e) ∈ snk0 := by
          rw [← hpre]
          exact List.mem_append_right pre (List.mem_cons_self _ _)
        have := hcl _ hmem
        simp at this }
  | statsObs t hc =>
    exact {
      hsize := Isize
      hbuf := Ibuf
      hri0 := Iri0
      hriC := IriC
      hr0 := Ir0
      hrC := IrC
      hfifo := Ififo
      hwsum := Iwsum
      hentry := Ientry
      hloop := Iloop
      hreading := Ireading
      hwriting := Iwriting
      hwerr := Iwerr
      hrerr := Irerr
      hpdone := Ipdone
      hwdone := Iwdone
      hlrs := Ilrs
      hlws := Ilws
      hsnk := Isnk
      hwclean := Iwclean }

theorem inv_steps {size : Nat} {snk0 : List WriteRes} {s s' : Sys}
    (hinv : SysInv size snk0 s) (hsteps : Steps s s') : SysInv size snk0 s' := by
  induction hsteps with
  | refl => exact hinv
  | tail _ hstep ih => exact inv_step ih hstep

theorem inv_reachable {size : Nat} {src : List ReadRes} {snk : List WriteRes} {s : Sys}
    (hsz : 1 ≤ size) (hr : Reachable size src snk s) : SysInv size snk s :=
  inv_steps (inv_init size hsz src snk) hr

/-! ## Monotonicity of `Stats` snapshots -/

/-- `Buffer.Stats` computes exactly the snapshot formula of the spec. -/
theorem stats_eq (b : Buffer) (now : Nat) : b.Stats now = statsSpec b now := by
  unfold Buffer.Stats statsSpec
  split_ifs <;> simp_all

/-- The four fields claim C8 asserts never decrease between successive
snapshots.  `TimeSpentReading` and `TimeSpentWriting` do NOT actually
satisfy this (see the C8 counterexample); the definition is kept to state
the original claim. -/
def statsLE (a c : Stats) : Prop :=
  a.BytesRead ≤ c.BytesRead ∧ a.TimeSpentReading ≤ c.TimeSpentReading ∧
  a.TimeSpentWriting ≤ c.TimeSpentWriting ∧ a.TotalTime ≤ c.TotalTime

/-- The snapshot fields that genuinely never decrease: `BytesRead` and
`TotalTime` are updated, and their in-flight parts are anchored, only at
lock-ordered times (the total-clock stop is a `time.Since` evaluated inside
the deferred function, which runs while the lock is still held), unlike the
phase durations of lines 131/201 which are captured before re-locking. -/
def statsLEMono (a c : Stats) : Prop :=
  a.BytesRead ≤ c.BytesRead ∧ a.TotalTime ≤ c.TotalTime

theorem statsLEMono_refl (a : Stats) : statsLEMono a a :=
  ⟨le_refl _, le_refl _⟩

theorem statsLEMono_trans {a c d : Stats} (h1 : statsLEMono a c) (h2 : statsLEMono c d) :
    statsLEMono a d :=
  ⟨le_trans h1.1 h2.1, le_trans h1.2 h2.2⟩

/-- For a fixed state, later snapshots only grow in the monotone fields. -/
theorem statsLEMono_time (b : Buffer) {t t' : Nat} (h : t ≤ t') :
    statsLEMono (b.Stats t) (b.Stats t') := by
  rw [stats_eq, stats_eq]
  unfold statsSpec statsLEMono
  refine ⟨le_refl _, ?_⟩
  simp only []
  split_ifs <;> omega

theorem clock_mono_step {s s' : Sys} (hstep : Step s s') : s.clock ≤ s'.clock := by
  cases hstep <;> assumption

/-- One step, observed at its lock-ordered commit time, never decreases
`BytesRead` or `TotalTime`.  (No such lemma holds for `TimeSpentReading` or
`TimeSpentWriting`: the finish steps commit a duration whose endpoint `tr`
may lie before an interleaved snapshot, which is what the C8 counterexample
exploits.) -/
theorem statsLEMono_step {s s' : Sys} (hstep : Step s s') :
    statsLEMono (s.b.Stats s'.clock) (s'.b.Stats s'.clock) := by
  cases hstep with
  | prodEnter t hc hp =>
    rw [stats_eq, stats_eq]
    unfold statsSpec statsLEMono startTotalClock
    refine ⟨le_refl _, ?_⟩
    simp only []
    split_ifs <;> omega
  | prodStartRead t hc hp =>
    rw [stats_eq, stats_eq]
    unfold statsSpec statsLEMono
    exact ⟨le_refl _, le_refl _⟩
  | prodFinishReadErr tr t pl bs e rest hc htr hlr hp hsrc hn =>
    rw [stats_eq, stats_eq]
    unfold statsSpec statsLEMono finishReadBuf
    exact ⟨by simp only []; omega, le_refl _⟩
  | prodFinishReadWErr tr t pl bs w rest hc htr hlr hp hsrc hn hw =>
    rw [stats_eq, stats_eq]
    unfold statsSpec statsLEMono finishReadBuf
    exact ⟨by simp only []; omega, le_refl _⟩
  | prodFinishReadOk tr t pl bs rest hc htr hlr hp hsrc hn hw =>
    rw [stats_eq, stats_eq]
    unfold statsSpec statsLEMono finishReadBuf
    exact ⟨by simp only []; omega, le_refl _⟩
  | prodWakeErr t w hc hp hw => exact statsLEMono_refl _
  | prodWakeSpace t hc hp hw hr => exact statsLEMono_refl _
  | consEnter t hc hp =>
    rw [stats_eq, stats_eq]
    unfold statsSpec statsLEMono startTotalClock
    refine ⟨le_refl _, ?_⟩
    simp only []
    split_ifs <;> omega
  | consExitEOF t hc hp hr he =>
    rw [stats_eq, stats_eq]
    unfold statsSpec statsLEMono stopTotalClock
    refine ⟨le_refl _, ?_⟩
    simp only []
    split_ifs <;> omega
  | consExitReadErr t e hc hp hr he hne =>
    rw [stats_eq, stats_eq]
    unfold statsSpec statsLEMono stopTotalClock
    refine ⟨le_refl _, ?_⟩
    simp only []
    split_ifs <;> omega
  | consStartWrite t hc hp hr =>
    rw [stats_eq, stats_eq]
    unfold statsSpec statsLEMono
    exact ⟨le_refl _, le_refl _⟩
  | consFinishWriteOk tr t p n rest hc htr hlw hp hsnk hn =>
    rw [stats_eq, stats_eq]
    unfold statsSpec statsLEMono finishWriteBuf
    exact ⟨le_refl _, le_refl _⟩
  | consFinishWriteErr tr t p n e rest hc htr hlw hp hsnk hn =>
    rw [stats_eq, stats_eq]
    unfold statsSpec statsLEMono stopTotalClock finishWriteBuf
    refine ⟨le_refl _, ?_⟩
    simp only []
    split_ifs <;> omega
  | statsObs t hc => exact statsLEMono_refl _

/-- Along any run, the monotone snapshot fields taken at the successive
step times only grow. -/
theorem statsLEMono_steps {s s' : Sys} (hsteps : Steps s s') :
    statsLEMono (s.b.Stats s.clock) (s'.b.Stats s'.clock) := by
  induction hsteps with
  | refl => exact statsLEMono_refl _
  | @tail m s2 hsteps' hstep ih =>
    refine statsLEMono_trans ih
      (statsLEMono_trans (statsLEMono_time m.b (clock_mono_step hstep)) ?_)
    exact statsLEMono_step hstep

/-! ## Concrete executions used as witnesses -/

/-- Source script of the clean witness run (capacity 8): one read delivering
two bytes, then a read reporting `io.EOF`. -/
def srcW : List ReadRes := [([1, 2], none), ([], some GoError.eof)]

/-- Sink script of the clean witness run: two clean one-byte writes. -/
def snkW : List WriteRes := [(1, none), (1, none)]

/-- Mid-run state of the clean witness run: the producer is inside its
second blocking read (6 free bytes offered) while the consumer is inside
its first write (slice `[1]`, capped at `maxWrite 8 = 1`). -/
def sMid : Sys :=
  { b := { buf := [1, 2, 0, 0, 0, 0, 0, 0], readIndex := 2, ready := 2, totalBytesRead := 2,
           readError := none, writeError := none, timeStarted := 1, lastReadStarted := 1,
           lastWriteStarted := 1, timeSpentReading := 0, timeSpentWriting := 0,
           totalTimeSpent := 0 }
    pphase := PPhase.reading 6
    psum := 2
    wphase := WPhase.writing [1]
    wsum := 0
    src := [([], some GoError.eof)]
    snk := [(1, none), (1, none)]
    produced := [1, 2]
    delivered := []
    clock := 1 }

/-- Terminal state of the clean witness run: both sides returned success,
all bytes delivered. -/
def sW : Sys :=
  { b := { buf := [1, 2, 0, 0, 0, 0, 0, 0], readIndex := 2, ready := 0, totalBytesRead := 2,
           readError := some GoError.eof, writeError := none, timeStarted := 0,
           lastReadStarted := 0, lastWriteStarted := 0, timeSpentReading := 0,
           timeSpentWriting := 0, totalTimeSpent := 0 }
    pphase := PPhase.done none
    psum := 2
    wphase := WPhase.done none
    wsum := 2
    src := []
    snk := []
    produced := [1, 2]
    delivered := [1, 2]
    clock := 1 }

theorem reach_sMid : Reachable 8 srcW snkW sMid := by
  refine Relation.ReflTransGen.head (Step.prodEnter _ 1 (by decide) (by decide)) ?_
  refine Relation.ReflTransGen.head (Step.prodStartRead _ 1 (by decide) (by decide)) ?_
  refine Relation.ReflTransGen.head
    (Step.prodFinishReadOk _ 1 1 8 [1, 2] [([], some GoError.eof)]
      (by decide) (by decide) (by decide) (by decide) (by decide) (by decide) (by decide)) ?_
  refine Relation.ReflTransGen.head (Step.prodStartRead _ 1 (by decide) (by decide)) ?_
  refine Relation.ReflTransGen.head (Step.consEnter _ 1 (by decide) (by decide)) ?_
  refine Relation.ReflTransGen.head
    (Step.consStartWrite _ 1 (by decide) (by decide) (by decide)) ?_
  exact Relation.ReflTransGen.refl

theorem steps_sMid_sW : Steps sMid sW := by
  refine Relation.ReflTransGen.head
    (Step.consFinishWriteOk _ 1 1 [1] 1 [(1, none)]
      (by decide) (by decide) (by decide) (by decide) (by decide) (by decide)) ?_
  refine Relation.ReflTransGen.head
    (Step.consStartWrite _ 1 (by decide) (by decide) (by decide)) ?_
  refine Relation.ReflTransGen.head
    (Step.consFinishWriteOk _ 1 1 [2] 1 []
      (by decide) (by decide) (by decide) (by decide) (by decide) (by decide)) ?_
  refine Relation.ReflTransGen.head
    (Step.prodFinishReadErr _ 1 1 6 [] GoError.eof []
      (by decide) (by decide) (by decide) (by decide) (by decide) (by decide)) ?_
  refine Relation.ReflTransGen.head
    (Step.consExitEOF _ 1 (by decide) (by decide) (by decide) (by decide)) ?_
  exact Relation.ReflTransGen.refl

theorem reach_sW : Reachable 8 srcW snkW sW :=
  Relation.ReflTransGen.trans reach_sMid steps_sMid_sW

/-- Source script of the ring-layout run (capacity 4): one byte, producer
then left mid-offer. -/
def srcC9 : List ReadRes := [([7], none)]

/-- Reachable state of a capacity-4 buffer with one undelivered byte at
index 0 and the producer mid-read on the offered free slice
`b.buf[1:4]` (which starts at `readIndex = 1`). -/
def sC9 : Sys :=
  { b := { buf := [7, 0, 0, 0], readIndex := 1, ready := 1, totalBytesRead := 1,
           readError := none, writeError := none, timeStarted := 1, lastReadStarted := 1,
           lastWriteStarted := 0, timeSpentReading := 0, timeSpentWriting := 0,
           totalTimeSpent := 0 }
    pphase := PPhase.reading 3
    psum := 1
    wphase := WPhase.entry
    wsum := 0
    src := []
    snk := []
    produced := [7]
    delivered := []
    clock := 1 }

theorem reach_sC9 : Reachable 4 srcC9 [] sC9 := by
  refine Relation.ReflTransGen.head (Step.prodEnter _ 1 (by decide) (by decide)) ?_
  refine Relation.ReflTransGen.head (Step.prodStartRead _ 1 (by decide) (by decide)) ?_
  refine Relation.ReflTransGen.head
    (Step.prodFinishReadOk _ 1 1 4 [7] []
      (by decide) (by decide) (by decide) (by decide) (by decide) (by decide) (by decide)) ?_
  refine Relation.ReflTransGen.head (Step.prodStartRead _ 1 (by decide) (by decide)) ?_
  exact Relation.ReflTransGen.refl

/-- Source script of the failing-sink run: a single one-byte read. -/
def srcF : List ReadRes := [([9], none)]

/-- Sink script of the failing-sink run: the only write fails after
accepting one byte. -/
def snkF : List WriteRes := [(1, some (GoError.other 0))]

/-- State of the failing-sink run just before the sink's write call
returns its error. -/
def sErr : Sys :=
  { b := { buf := [9, 0, 0, 0, 0, 0, 0, 0], readIndex := 1, ready := 1, totalBytesRead := 1,
           readError := none, writeError := none, timeStarted := 1, lastReadStarted := 0,
           lastWriteStarted := 1, timeSpentReading := 0, timeSpentWriting := 0,
           totalTimeSpent := 0 }
    pphase := PPhase.loopTop
    psum := 1
    wphase := WPhase.writing [9]
    wsum := 0
    src := []
    snk := [(1, some (GoError.other 0))]
    produced := [9]
    delivered := []
    clock := 1 }

/-- State of the failing-sink run right after the write error was
committed: `writeError` records the wrapped error and `WriteTo` returned it. -/
def sErr2 : Sys :=
  { b := { buf := [9, 0, 0, 0, 0, 0, 0, 0], readIndex := 1, ready := 0, totalBytesRead := 1,
           readError := none, writeError := some (GoError.wrapWrite (GoError.other 0)),
           timeStarted := 0, lastReadStarted := 0, lastWriteStarted := 0,
           timeSpentReading := 0, timeSpentWriting := 0, totalTimeSpent := 0 }
    pphase := PPhase.loopTop
    psum := 1
    wphase := WPhase.done (some (GoError.wrapWrite (GoError.other 0)))
    wsum := 1
    src := []
    snk := []
    produced := [9]
    delivered := [9]
    clock := 1 }

theorem reach_sErr : Reachable 8 srcF snkF sErr := by
  refine Relation.ReflTransGen.head (Step.prodEnter _ 1 (by decide) (by decide)) ?_
  refine Relation.ReflTransGen.head (Step.prodStartRead _ 1 (by decide) (by decide)) ?_
  refine Relation.ReflTransGen.head
    (Step.prodFinishReadOk _ 1 1 8 [9] []
      (by decide) (by decide) (by decide) (by decide) (by decide) (by decide) (by decide)) ?_
  refine Relation.ReflTransGen.head (Step.consEnter _ 1 (by decide) (by decide)) ?_
  refine Relation.ReflTransGen.head
    (Step.consStartWrite _ 1 (by decide) (by decide) (by decide)) ?_
  exact Relation.ReflTransGen.refl

theorem step_sErr : Step sErr sErr2 :=
  Step.consFinishWriteErr sErr 1 1 [9] 1 (GoError.other 0) []
    (by decide) (by decide) (by decide) (by decide) (by decide) (by decide)

/-- Source script of the producer-observes-write-error run: two one-byte
reads (only the first lands before the sink fails). -/
def srcF2 : List ReadRes := [([9], none), ([4], none)]

/-- State of that run with the consumer already failed (wrapped write error
recorded) and the producer inside one further blocking read. -/
def sC6 : Sys :=
  { b := { buf := [9, 0, 0, 0, 0, 0, 0, 0], readIndex := 1, ready := 0, totalBytesRead := 1,
           readError := none, writeError := some (GoError.wrapWrite (GoError.other 0)),
           timeStarted := 0, lastReadStarted := 1, lastWriteStarted := 0,
           timeSpentReading := 0, timeSpentWriting := 0, totalTimeSpent := 0 }
    pphase := PPhase.reading 7
    psum := 1
    wphase := WPhase.done (some (GoError.wrapWrite (GoError.other 0)))
    wsum := 1
    src := [([4], none)]
    snk := []
    produced := [9]
    delivered := [9]
    clock := 1 }

/-- Successor of `sC6`: the producer finished its read cleanly, observed
the recorded write error and stopped, returning it. -/
def sC6b : Sys :=
  { b := { buf := [9, 4, 0, 0, 0, 0, 0, 0], readIndex := 2, ready := 1, totalBytesRead := 2,
           readError := none, writeError := some (GoError.wrapWrite (GoError.other 0)),
           timeStarted := 0, lastReadStarted := 0, lastWriteStarted := 0,
           timeSpentReading := 0, timeSpentWriting := 0, totalTimeSpent := 0 }
    pphase := PPhase.done (some (GoError.wrapWrite (GoError.other 0)))
    psum := 2
    wphase := WPhase.done (some (GoError.wrapWrite (GoError.other 0)))
    wsum := 1
    src := []
    snk := []
    produced := [9, 4]
    delivered := [9]
    clock := 1 }

theorem reach_sC6 : Reachable 8 srcF2 snkF sC6 := by
  refine Relation.ReflTransGen.head (Step.prodEnter _ 1 (by decide) (by decide)) ?_
  refine Relation.ReflTransGen.head (Step.prodStartRead _ 1 (by decide) (by decide)) ?_
  refine Relation.ReflTransGen.head
    (Step.prodFinishReadOk _ 1 1 8 [9] [([4], none)]
      (by decide) (by decide) (by decide) (by decide) (by decide) (by decide) (by decide)) ?_
  refine Relation.ReflTransGen.head (Step.consEnter _ 1 (by decide) (by decide)) ?_
  refine Relation.ReflTransGen.head
    (Step.consStartWrite _ 1 (by decide) (by decide) (by decide)) ?_
  refine Relation.ReflTransGen.head
    (Step.consFinishWriteErr _ 1 1 [9] 1 (GoError.other 0) []
      (by decide) (by decide) (by decide) (by decide) (by decide) (by decide)) ?_
  refine Relation.ReflTransGen.head (Step.prodStartRead _ 1 (by decide) (by decide)) ?_
  exact Relation.ReflTransGen.refl

theorem step_sC6 : Step sC6 sC6b :=
  Step.prodFinishReadWErr sC6 1 1 7 [4] (GoError.wrapWrite (GoError.other 0)) []
    (by decide) (by decide) (by decide) (by decide) (by decide) (by decide) (by decide)

/-! ## The claims -/

/-- Claim C1: for every input byte sequence offered by the source and every
capacity at least 1, the sequence of bytes delivered to the sink by `Copy`
(`ReadFrom` interleaved with `WriteTo` on one `Buffer`) equals exactly the
sequence produced by the source, in FIFO order, with no duplication, loss,
or reordering: at every reachable state the delivered bytes followed by the
buffered bytes are exactly the produced bytes, and when `WriteTo` returns
success the delivered sequence equals the produced sequence. -/
theorem claim_lossless_relay (size : Nat) (src : List ReadRes) (snk : List WriteRes)
    (s : Sys) (hsz : 1 ≤ size) (hreach : Reachable size src snk s) :
    s.delivered ++ ringContents s.b = s.produced ∧
    (s.wphase = WPhase.done none → s.delivered = s.produced) := by
  have hinv := inv_reachable hsz hreach
  refine ⟨hinv.hfifo, ?_⟩
  intro hdone
  rcases hinv.hwdone none hdone with ⟨_, _, hr0, _⟩ | ⟨e, he, _⟩ | ⟨e, he, _⟩
  · have hnil : ringContents s.b = [] := by
      apply List.eq_nil_of_length_eq_zero
      rw [length_ringContents, hr0]
      rfl
    have := hinv.hfifo
    rw [hnil, List.append_nil] at this
    exact this
  · simp at he
  · simp at he

/-- Claim C1 witness: the concrete clean run `sW` (capacity 8, source
delivers `[1, 2]` then EOF). -/
theorem claim_lossless_relay_witness :
    (1 ≤ 8 ∧ Reachable 8 srcW snkW sW ∧ sW.wphase = WPhase.done none) ∧
    (sW.delivered ++ ringContents sW.b = sW.produced ∧ sW.delivered = sW.produced) := by
  have h := claim_lossless_relay 8 srcW snkW sW (by decide) reach_sW
  exact ⟨⟨by decide, reach_sW, by decide⟩, h.1, h.2 (by decide)⟩

/-- Claim C2: if the source reports end-of-input (`io.EOF`, recorded in
`readError`) after delivering `M` bytes and the sink never returns an error,
then whenever `WriteTo` (and hence `Copy`) returns it returns exactly `M`
bytes delivered and a nil error. -/
theorem claim_clean_eof (size : Nat) (src : List ReadRes) (snk : List WriteRes)
    (s : Sys) (res : Option GoError) (hsz : 1 ≤ size) (hreach : Reachable size src snk s)
    (hclean : ∀ q ∈ snk, q.2 = none) (hdone : s.wphase = WPhase.done res)
    (heof : s.b.readError = some GoError.eof) :
    res = none ∧ s.wsum = (s.produced.length : Int) ∧ s.delivered = s.produced := by
  have hinv := inv_reachable hsz hreach
  have hwe := hinv.hwclean hclean
  rcases hinv.hwdone res hdone with ⟨h1, _, hr0, _⟩ | ⟨e, h1, h2, h3⟩ | ⟨e, h1, h2⟩
  · have hnil : ringContents s.b = [] := by
      apply List.eq_nil_of_length_eq_zero
      rw [length_ringContents, hr0]
      rfl
    have hdel := hinv.hfifo
    rw [hnil, List.append_nil] at hdel
    refine ⟨h1, ?_, hdel⟩
    rw [hinv.hwsum, hdel]
  · rw [heof] at h2
    injection h2 with h2
    exact absurd h2.symm h3
  · rw [hwe] at h2
    simp at h2

/-- Claim C2 witness: in the clean run `sW` the source delivered 2 bytes
then EOF, the sink never errored, and `WriteTo` returned `(2, nil)`. -/
theorem claim_clean_eof_witness :
    (1 ≤ 8 ∧ Reachable 8 srcW snkW sW ∧ (∀ q ∈ snkW, q.2 = none) ∧
      sW.wphase = WPhase.done none ∧ sW.b.readError = some GoError.eof) ∧
    (sW.wsum = (sW.produced.length : Int) ∧ sW.wsum = 2) := by
  have h := claim_clean_eof 8 srcW snkW sW none (by decide) reach_sW (by decide)
    (by decide) (by decide)
  exact ⟨⟨by decide, reach_sW, by decide, by decide, by decide⟩, h.2.1, by decide⟩

/-- Claim C3: every single write operation `WriteTo` issues to the sink
passes a slice of length at most `max 1 (C / 8)` (integer division), where
`C` is the capacity fixed at construction: in every reachable state where
the consumer is inside a write call on slice `p`, `p` is that short. -/
theorem claim_chunk_cap (size : Nat) (src : List ReadRes) (snk : List WriteRes)
    (s : Sys) (p : List Byte) (hsz : 1 ≤ size) (hreach : Reachable size src snk s)
    (hw : s.wphase = WPhase.writing p) :
    p.length ≤ max 1 (size / 8) := by
  have hinv := inv_reachable hsz hreach
  have h := (hinv.hwriting p hw).2.2.2
  rw [maxWrite_eq_max] at h
  exact h

/-- Claim C3 witness: in the mid-run state `sMid` (capacity 8) the consumer
is writing the slice `[1]` of length `1 = max 1 (8 / 8)`. -/
theorem claim_chunk_cap_witness :
    (1 ≤ 8 ∧ Reachable 8 srcW snkW sMid ∧ sMid.wphase = WPhase.writing [1]) ∧
    ([1].length ≤ max 1 (8 / 8)) :=
  ⟨⟨by decide, reach_sMid, by decide⟩,
   claim_chunk_cap 8 srcW snkW sMid [1] (by decide) reach_sMid (by decide)⟩

/-- Claim C4: in every reachable state of a `Buffer` (under the `io`
contract that `Read`/`Write` return counts no larger than the slice they
were given), the count of buffered-but-undelivered bytes (`ready`, the
spec's `filled`) satisfies `0 ≤ filled ≤ C`; reachability is closed under
every step of `ReadFrom`, `WriteTo` and `Stats`, so every step preserves
the bound. -/
theorem claim_capacity_invariant (size : Nat) (src : List ReadRes) (snk : List WriteRes)
    (s : Sys) (hsz : 1 ≤ size) (hreach : Reachable size src snk s) :
    0 ≤ s.b.ready ∧ s.b.ready ≤ (size : Int) := by
  have hinv := inv_reachable hsz hreach
  exact ⟨hinv.hr0, hinv.hrC⟩

/-- Claim C4 witness: the mid-run state `sMid` has `0 ≤ 2 ≤ 8`. -/
theorem claim_capacity_invariant_witness :
    (1 ≤ 8 ∧ Reachable 8 srcW snkW sMid) ∧
    (0 ≤ sMid.b.ready ∧ sMid.b.ready ≤ (8 : Int) ∧ sMid.b.ready = 2) := by
  have h := claim_capacity_invariant 8 srcW snkW sMid (by decide) reach_sMid
  exact ⟨⟨by decide, reach_sMid⟩, h.1, h.2, by decide⟩

/-- Claim C5: whenever the sink's write call returns a non-nil error,
`WriteTo` records that error wrapped with the phase tag (`wrapWrite`,
modelling `fmt.Errorf("write error: %w", err)`) in the `writeError` field
and immediately returns it as a failure together with the bytes delivered
so far (`wsum` grows exactly by the accepted count `n`); and once
`writeError` is recorded the consumer performs no further writes: no later
step consumes the sink script or extends the delivered bytes. -/
theorem claim_write_error_fatal (size : Nat) (src : List ReadRes) (snk : List WriteRes)
    (s s' : Sys) (hsz : 1 ≤ size) (hreach : Reachable size src snk s)
    (hstep : Step s s') :
    (∀ n e rest, s.snk = (n, some e) :: rest → s'.snk = rest →
      s'.b.writeError = some (GoError.wrapWrite e) ∧
      s'.wphase = WPhase.done (some (GoError.wrapWrite e)) ∧
      s'.wsum = s.wsum + (n : Int)) ∧
    (s.b.writeError ≠ none → s'.snk = s.snk ∧ s'.delivered = s.delivered) := by
  have hinv := inv_reachable hsz hreach
  constructor
  · intro n e rest h1 h2
    cases hstep
    case consFinishWriteOk tr t p n2 rest2 hc htr hlw hp hsnk2 hn =>
      rw [h1] at hsnk2
      simp at hsnk2
    case consFinishWriteErr tr t p n2 e2 rest2 hc htr hlw hp hsnk2 hn =>
      rw [h1] at hsnk2
      simp only [List.cons.injEq, Prod.mk.injEq, Option.some.injEq] at hsnk2
      obtain ⟨⟨ha, hb⟩, hc2⟩ := hsnk2
      subst ha
      subst hb
      subst hc2
      exact ⟨rfl, rfl, rfl⟩
    all_goals
      have h2a : s.snk = rest := h2
      rw [h1] at h2a
      exact absurd h2a (List.cons_ne_self _ _)
  · intro hne
    have hd := (hinv.hwerr hne).1
    cases hstep
    case consEnter t hc hp =>
      rw [hp] at hd
      simp at hd
    case consExitEOF t hc hp hr he =>
      rw [hp] at hd
      simp at hd
    case consExitReadErr t e hc hp hr he hne2 =>
      rw [hp] at hd
      simp at hd
    case consStartWrite t hc hp hr =>
      rw [hp] at hd
      simp at hd
    case consFinishWriteOk tr t p n rest hc htr hlw hp hsnk2 hn =>
      rw [hp] at hd
      simp at hd
    case consFinishWriteErr tr t p n e rest hc htr hlw hp hsnk2 hn =>
      rw [hp] at hd
      simp at hd
    all_goals exact ⟨rfl, rfl⟩

/-- Claim C5 witness: the failing-sink run at capacity 8 — the sink accepts
one byte and fails; the step from `sErr` to `sErr2` records the wrapped
error, returns it, and delivers exactly the accepted byte. -/
theorem claim_write_error_fatal_witness :
    (1 ≤ 8 ∧ Reachable 8 srcF snkF sErr ∧ Step sErr sErr2 ∧
      sErr.snk = (1, some (GoError.other 0)) :: [] ∧ sErr2.snk = []) ∧
    (sErr2.b.writeError = some (GoError.wrapWrite (GoError.other 0)) ∧
      sErr2.wphase = WPhase.done (some (GoError.wrapWrite (GoError.other 0))) ∧
      sErr2.wsum = sErr.wsum + (1 : Int)) := by
  have h := (claim_write_error_fatal 8 srcF snkF sErr sErr2 (by decide) reach_sErr
    step_sErr).1 1 (GoError.other 0) [] (by decide) (by decide)
  exact ⟨⟨by decide, reach_sErr, step_sErr, by decide, by decide⟩, h⟩

/-- Claim C6: whenever `ReadFrom` observes a recorded `writeError` — either
after a successful read with no read error, or upon waking from the
full-buffer wait — production stops (`done`) and `ReadFrom` returns that
write error; and once the producer has stopped, no step reads from the
source again. -/
theorem claim_producer_observes_write_error (size : Nat) (src : List ReadRes)
    (snk : List WriteRes) (s s' : Sys) (hsz : 1 ≤ size)
    (hreach : Reachable size src snk s) (hstep : Step s s') :
    (∀ bs rest w, s.src = (bs, none) :: rest → s'.src = rest →
      s.b.writeError = some w →
      s'.pphase = PPhase.done (some w) ∧ s'.psum = s.psum + (bs.length : Int)) ∧
    (∀ w, s.pphase = PPhase.waitingFull → s.b.writeError = some w →
      s'.pphase = PPhase.waitingFull ∨ s'.pphase = PPhase.done (some w)) ∧
    (∀ r, s.pphase = PPhase.done r → s'.src = s.src ∧ s'.produced = s.produced) := by
  refine ⟨?_, ?_, ?_⟩
  · intro bs rest w h1 h2 h3
    cases hstep
    case prodFinishReadErr tr t pl bs2 e2 rest2 hc htr hlr hp hsrc2 hn =>
      rw [h1] at hsrc2
      simp at hsrc2
    case prodFinishReadWErr tr t pl bs2 w2 rest2 hc htr hlr hp hsrc2 hn hw =>
      rw [h1] at hsrc2
      simp only [List.cons.injEq, Prod.mk.injEq] at hsrc2
      obtain ⟨⟨ha, _⟩, hc2⟩ := hsrc2
      subst ha
      subst hc2
      rw [h3] at hw
      injection hw with hw
      subst hw
      exact ⟨rfl, rfl⟩
    case prodFinishReadOk tr t pl bs2 rest2 hc htr hlr hp hsrc2 hn hw =>
      rw [h3] at hw
      simp at hw
    all_goals
      have h2a : s.src = rest := h2
      rw [h1] at h2a
      exact absurd h2a (List.cons_ne_self _ _)
  · intro w hp2 h3
    cases hstep
    case prodEnter t hc hp =>
      rw [hp2] at hp
      simp at hp
    case prodStartRead t hc hp =>
      rw [hp2] at hp
      simp at hp
    case prodFinishReadErr tr t pl bs e rest hc htr hlr hp hsrc hn =>
      rw [hp2] at hp
      simp at hp
    case prodFinishReadWErr tr t pl bs w2 rest hc htr hlr hp hsrc hn hw =>
      rw [hp2] at hp
      simp at hp
    case prodFinishReadOk tr t pl bs rest hc htr hlr hp hsrc hn hw =>
      rw [hp2] at hp
      simp at hp
    case prodWakeErr t w2 hc hp hw =>
      right
      rw [h3] at hw
      injection hw with hw
      subst hw
      rfl
    case prodWakeSpace t hc hp hw hr =>
      rw [h3] at hw
      simp at hw
    all_goals
      left
      exact hp2
  · intro r hp2
    cases hstep
    case prodEnter t hc hp =>
      rw [hp2] at hp
      simp at hp
    case prodStartRead t hc hp =>
      rw [hp2] at hp
      simp at hp
    case prodFinishReadErr tr t pl bs e rest hc htr hlr hp hsrc hn =>
      rw [hp2] at hp
      simp at hp
    case prodFinishReadWErr tr t pl bs w2 rest hc htr hlr hp hsrc hn hw =>
      rw [hp2] at hp
      simp at hp
    case prodFinishReadOk tr t pl bs rest hc htr hlr hp hsrc hn hw =>
      rw [hp2] at hp
      simp at hp
    case prodWakeErr t w2 hc hp hw =>
      rw [hp2] at hp
      simp at hp
    case prodWakeSpace t hc hp hw hr =>
      rw [hp2] at hp
      simp at hp
    all_goals exact ⟨rfl, rfl⟩

/-- Claim C6 witness: in the run `sC6` the consumer has failed (wrapped
write error recorded); the producer's next read finishes cleanly, observes
the write error, stops and returns it. -/
theorem claim_producer_observes_write_error_witness :
    (1 ≤ 8 ∧ Reachable 8 srcF2 snkF sC6 ∧ Step sC6 sC6b ∧
      sC6.src = ([4], none) :: [] ∧ sC6b.src = [] ∧
      sC6.b.writeError = some (GoError.wrapWrite (GoError.other 0))) ∧
    (sC6b.pphase = PPhase.done (some (GoError.wrapWrite (GoError.other 0))) ∧
      sC6b.psum = sC6.psum + (([4] : List Byte).length : Int)) := by
  have h := (claim_producer_observes_write_error 8 srcF2 snkF sC6 sC6b (by decide)
    reach_sC6 step_sC6).1 [4] [] (GoError.wrapWrite (GoError.other 0))
    (by decide) (by decide) (by decide)
  exact ⟨⟨by decide, reach_sC6, step_sC6, by decide, by decide, by decide⟩, h⟩

/-- Claim C7: `Stats()` captures the current time exactly once (the single
`now` argument of `Buffer.Stats`) and returns `TotalTime` as the
accumulated total plus `now - timeStarted` when that timestamp is non-zero,
`TimeSpentReading` and `TimeSpentWriting` computed analogously from their
accumulated fields and open-phase timestamps, plus the current buffered
byte count, capacity, and total bytes read (the spec formula `statsSpec`);
and on a freshly constructed `Buffer` all reported time and byte values are
zero. -/
theorem claim_stats_snapshot :
    (∀ (b : Buffer) (now : Nat), b.Stats now = statsSpec b now) ∧
    (∀ (size now : Nat), (New size).Stats now =
      { BufferCapacity := size, BufferedBytes := 0, BytesRead := 0, TotalTime := 0,
        TimeSpentReading := 0, TimeSpentWriting := 0 }) := by
  refine ⟨stats_eq, ?_⟩
  intro size now
  rw [stats_eq]
  simp [statsSpec, New]

/-- Source script of the snapshot-race run (capacity 8): two one-byte
reads. -/
def srcR : List ReadRes := [([5], none), ([6], none)]

/-- Sink script of the snapshot-race run: one clean one-byte write. -/
def snkR : List WriteRes := [(1, none)]

/-- State of the snapshot-race run with both sides inside their blocking
I/O calls since time 1 (`lastReadStarted = lastWriteStarted = 1`): the
producer is in its second read, the consumer is writing `[5]`. -/
def sRace : Sys :=
  { b := { buf := [5, 0, 0, 0, 0, 0, 0, 0], readIndex := 1, ready := 1, totalBytesRead := 1,
           readError := none, writeError := none, timeStarted := 1, lastReadStarted := 1,
           lastWriteStarted := 1, timeSpentReading := 0, timeSpentWriting := 0,
           totalTimeSpent := 0 }
    pphase := PPhase.reading 7
    psum := 1
    wphase := WPhase.writing [5]
    wsum := 0
    src := [([6], none)]
    snk := [(1, none)]
    produced := [5]
    delivered := []
    clock := 1 }

/-- Successor of `sRace` after both racy commits: the read and the write
each returned at time 2 — where `dur := time.Since(...)` was evaluated
(lines 131 and 201), without the lock — but re-acquired the mutex only at
times 4 and 5, so each committed a duration of `2 - 1 = 1`, although a
`Stats()` call at time 3 had already reported `3 - 1 = 2` in-flight for
both phases. -/
def sRace2 : Sys :=
  { b := { buf := [5, 6, 0, 0, 0, 0, 0, 0], readIndex := 2, ready := 1, totalBytesRead := 2,
           readError := none, writeError := none, timeStarted := 1, lastReadStarted := 0,
           lastWriteStarted := 0, timeSpentReading := 1, timeSpentWriting := 1,
           totalTimeSpent := 0 }
    pphase := PPhase.loopTop
    psum := 2
    wphase := WPhase.loopTop
    wsum := 1
    src := []
    snk := []
    produced := [5, 6]
    delivered := [5]
    clock := 5 }

theorem reach_sRace : Reachable 8 srcR snkR sRace := by
  refine Relation.ReflTransGen.head (Step.prodEnter _ 1 (by decide) (by decide)) ?_
  refine Relation.ReflTransGen.head (Step.prodStartRead _ 1 (by decide) (by decide)) ?_
  refine Relation.ReflTransGen.head
    (Step.prodFinishReadOk _ 1 1 8 [5] [([6], none)]
      (by decide) (by decide) (by decide) (by decide) (by decide) (by decide) (by decide)) ?_
  refine Relation.ReflTransGen.head (Step.prodStartRead _ 1 (by decide) (by decide)) ?_
  refine Relation.ReflTransGen.head (Step.consEnter _ 1 (by decide) (by decide)) ?_
  refine Relation.ReflTransGen.head
    (Step.consStartWrite _ 1 (by decide) (by decide) (by decide)) ?_
  exact Relation.ReflTransGen.refl

/-- The two racy commits, run after a `Stats()` observation at time 3 (the
commit times 4 and 5 are lock-ordered after it, the duration endpoints
`tr = 2` are not). -/
theorem steps_sRace : Steps { sRace with clock := 3 } sRace2 := by
  refine Relation.ReflTransGen.head
    (Step.prodFinishReadOk _ 2 4 7 [6] []
      (by decide) (by decide) (by decide) (by decide) (by decide) (by decide) (by decide)) ?_
  refine Relation.ReflTransGen.head
    (Step.consFinishWriteOk _ 2 5 [5] 1 []
      (by decide) (by decide) (by decide) (by decide) (by decide) (by decide)) ?_
  exact Relation.ReflTransGen.refl

/-- Claim C8 counterexample: successive `Stats()` calls CAN see
`TimeSpentReading` and `TimeSpentWriting` decrease.  In the reachable
state `sRace` both sides are mid-I/O since time 1; a snapshot at time 3
reports 2 for each phase time; both I/O calls returned at time 2 (each
phase duration `dur` was captured then, lines 131/201, before re-locking)
and commit at times 4 and 5, freezing each accumulated phase time at 1; a
snapshot at time 6 then reports 1 < 2 for both.  `BytesRead` and
`TotalTime` still grew. -/
theorem claim_stats_monotone_cex :
    (1 ≤ 8 ∧ Reachable 8 srcR snkR sRace ∧ sRace.clock ≤ 3 ∧
      Steps { sRace with clock := 3 } sRace2 ∧ sRace2.clock ≤ 6) ∧
    (sRace.b.Stats 3).TimeSpentReading = 2 ∧ (sRace2.b.Stats 6).TimeSpentReading = 1 ∧
    (sRace.b.Stats 3).TimeSpentWriting = 2 ∧ (sRace2.b.Stats 6).TimeSpentWriting = 1 ∧
    ¬ statsLE (sRace.b.Stats 3) (sRace2.b.Stats 6) :=
  ⟨⟨by decide, reach_sRace, by decide, steps_sRace, by decide⟩,
   by decide, by decide, by decide, by decide,
   fun h => absurd h.2.1 (by decide)⟩

/-- Claim C8 (amended): across any pair of successive `Stats()` calls made
concurrently with an otherwise-correct transfer (first call at time `t1`
after a reachable state `s0`, then any interleaved steps to `s2`, then a
second call at `t2`), the reported `BytesRead` and `TotalTime` never
decrease, and the reported `BufferedBytes` never exceeds the capacity.
The reported `TimeSpentReading` and `TimeSpentWriting` can transiently
decrease, because the committed phase duration is captured by `time.Since`
when the I/O call returns (lines 131/201), before the mutex is re-acquired,
so a snapshot taken in between reports more in-flight time than is
subsequently committed (see the counterexample). -/
theorem claim_stats_monotone (size : Nat) (src : List ReadRes) (snk : List WriteRes)
    (s0 s2 : Sys) (t1 t2 : Nat) (hsz : 1 ≤ size) (hreach : Reachable size src snk s0)
    (h1 : s0.clock ≤ t1) (hsteps : Steps { s0 with clock := t1 } s2)
    (h2 : s2.clock ≤ t2) :
    statsLEMono (s0.b.Stats t1) (s2.b.Stats t2) ∧
    (s2.b.Stats t2).BufferedBytes ≤ (size : Int) := by
  have hinv0 := inv_reachable hsz hreach
  have hinv1 : SysInv size snk { s0 with clock := t1 } :=
    inv_step hinv0 (Step.statsObs s0 t1 h1)
  have hinv2 := inv_steps hinv1 hsteps
  constructor
  · exact statsLEMono_trans (statsLEMono_steps hsteps) (statsLEMono_time s2.b h2)
  · rw [stats_eq]
    exact hinv2.hrC

/-- Claim C8 (amended) witness: across the very snapshot-race run on which
the phase times decrease, the monotone fields still grow between the
snapshots at times 3 and 6. -/
theorem claim_stats_monotone_witness :
    (1 ≤ 8 ∧ Reachable 8 srcR snkR sRace ∧ sRace.clock ≤ 3 ∧
      Steps { sRace with clock := 3 } sRace2 ∧ sRace2.clock ≤ 6) ∧
    (statsLEMono (sRace.b.Stats 3) (sRace2.b.Stats 6) ∧
      (sRace2.b.Stats 6).BufferedBytes ≤ (8 : Int)) := by
  have h := claim_stats_monotone 8 srcR snkR sRace sRace2 3 6 (by decide) reach_sRace
    (by decide) steps_sRace (by decide)
  exact ⟨⟨by decide, reach_sRace, by decide, steps_sRace, by decide⟩, h⟩

/-- Modelled from the spec: the claim's formula for the start of the free
region, `(fillStart - filled) mod C`, with `fillStart` the index of the
next byte to be consumed and `filled` the buffered count. -/
def claimFreeStart (b : Buffer) : Int := (fillStart b - b.ready) % (b.buf.length : Int)

/-- Claim C9 counterexample: in the reachable capacity-4 state `sC9` the
producer is mid-read on the offered free slice `b.buf[1:4]`, which starts
at `readIndex = 1`: the free region starts at index 1 (and wraps), while
the claim's formula `(fillStart - filled) mod C` yields 3.  Index 0 — inside
the claimed free region of length `C - filled = 3` starting at 3 — actually
holds the single buffered-but-undelivered byte `7`. -/
theorem claim_ring_layout_cex :
    Reachable 4 srcC9 [] sC9 ∧ sC9.pphase = PPhase.reading 3 ∧
    sC9.b.readIndex = 1 ∧ sC9.b.ready = 1 ∧ ringContents sC9.b = [7] ∧
    fillStart sC9.b = 0 ∧ claimFreeStart sC9.b = 3 ∧
    ¬ claimFreeStart sC9.b = sC9.b.readIndex :=
  ⟨reach_sC9, by decide, by decide, by decide, by decide, by decide, by decide, by decide⟩

/-- Claim C9 (amended): in every reachable state, with `fillStart` the
index of the next byte to be consumed (`(readIndex - ready) mod C`) and
`filled = ready` the current byte count, `0 ≤ filled ≤ C` and the free
region offered to the producer starts at index `(fillStart + filled) mod C`
(which is exactly `readIndex`, where the code's offered slice
`b.buf[readIndex:until]` begins) and has length `C - filled`; the
producer's and consumer's contiguous sub-range computations conform to this
layout: the producer's slice is the first contiguous part of that free
region, and the consumer's slice starts at `fillStart` and is the first
contiguous part of the filled region. -/
theorem claim_ring_layout_amended (size : Nat) (src : List ReadRes) (snk : List WriteRes)
    (s : Sys) (hsz : 1 ≤ size) (hreach : Reachable size src snk s) :
    0 ≤ s.b.ready ∧ s.b.ready ≤ (size : Int) ∧
    (fillStart s.b + s.b.ready) % (size : Int) = s.b.readIndex ∧
    consSliceStart s.b = fillStart s.b ∧
    consSliceLen s.b = min s.b.ready ((size : Int) - fillStart s.b) ∧
    prodSliceLen s.b = min ((size : Int) - s.b.readIndex) ((size : Int) - s.b.ready) := by
  have hinv := inv_reachable hsz hreach
  have hbl : (s.b.buf.length : Int) = (size : Int) := by exact_mod_cast hinv.hbuf
  have hri0 := hinv.hri0
  have hriC := hinv.hriC
  have hr0 := hinv.hr0
  have hrC := hinv.hrC
  have hszI : (1 : Int) ≤ (size : Int) := by exact_mod_cast hinv.hsize
  have hshift : (s.b.readIndex - s.b.ready) % (size : Int)
      = (s.b.readIndex - s.b.ready + (size : Int)) % (size : Int) := by
    simp [Int.add_mul_emod_self_left]
  have hf : fillStart s.b = if s.b.readIndex - s.b.ready ≥ 0 then s.b.readIndex - s.b.ready
      else s.b.readIndex - s.b.ready + (size : Int) := by
    unfold fillStart
    rw [hbl]
    split_ifs with hcase
    · exact Int.emod_eq_of_lt hcase (by omega)
    · rw [hshift]
      exact Int.emod_eq_of_lt (by omega) (by omega)
  refine ⟨hr0, hrC, ?_, ?_, ?_, ?_⟩
  · rw [hf]
    split_ifs with hcase
    · rw [(by ring : s.b.readIndex - s.b.ready + s.b.ready = s.b.readIndex)]
      exact Int.emod_eq_of_lt hri0 hriC
    · rw [(by ring : s.b.readIndex - s.b.ready + (size : Int) + s.b.ready
        = s.b.readIndex + (size : Int))]
      rw [(by simp [Int.add_mul_emod_self_left] :
        (s.b.readIndex + (size : Int)) % (size : Int) = s.b.readIndex % (size : Int))]
      exact Int.emod_eq_of_lt hri0 hriC
  · unfold consSliceStart
    rw [hbl, hf]
  · unfold consSliceLen
    rw [hbl, hf]
    split_ifs with hcase <;> omega
  · unfold prodSliceLen prodUntil
    rw [hbl]
    split_ifs with hcase <;> omega

/-- Claim C9 (amended) witness: the mid-run state `sMid` (capacity 8,
`readIndex = 2`, `ready = 2`, `fillStart = 0`). -/
theorem claim_ring_layout_amended_witness :
    (1 ≤ 8 ∧ Reachable 8 srcW snkW sMid) ∧
    ((fillStart sMid.b + sMid.b.ready) % (8 : Int) = sMid.b.readIndex ∧
      consSliceStart sMid.b = fillStart sMid.b ∧
      consSliceLen sMid.b = min sMid.b.ready ((8 : Int) - fillStart sMid.b) ∧
      prodSliceLen sMid.b = min ((8 : Int) - sMid.b.readIndex) ((8 : Int) - sMid.b.ready)) := by
  have h := claim_ring_layout_amended 8 srcW snkW sMid (by decide) reach_sMid
  exact ⟨⟨by decide, reach_sMid⟩, h.2.2.1, h.2.2.2.1, h.2.2.2.2.1, h.2.2.2.2.2⟩

/-- Claim C10 (implicit): for every buffer of capacity at least 1, every
slice handed to the source's `Read` by `ReadFrom` and every slice handed to
the sink's `Write` by `WriteTo` is non-empty, and the offered read slice
stays within the storage bounds (`readIndex + length ≤ C`, so the modulo
and slicing operations are in bounds): `ReadFrom` only computes a free
sub-range when `filled < C` and `WriteTo` only computes a filled sub-range
when `filled > 0`. -/
theorem claim_slices_nonempty (size : Nat) (src : List ReadRes) (snk : List WriteRes)
    (s : Sys) (hsz : 1 ≤ size) (hreach : Reachable size src snk s) :
    (∀ pl, s.pphase = PPhase.reading pl → 1 ≤ pl ∧ s.b.readIndex.toNat + pl ≤ size) ∧
    (∀ p, s.wphase = WPhase.writing p → 1 ≤ p.length ∧ (p.length : Int) ≤ s.b.ready) := by
  have hinv := inv_reachable hsz hreach
  constructor
  · intro pl hp
    obtain ⟨a1, a2, _⟩ := hinv.hreading pl hp
    have := hinv.hri0
    exact ⟨a1, by omega⟩
  · intro p hw
    obtain ⟨_, b1, b2, _⟩ := hinv.hwriting p hw
    exact ⟨b1, b2⟩

/-- Claim C10 witness: in `sMid` the producer's offered slice has length 6
with `readIndex = 2` (`2 + 6 ≤ 8`) and the consumer's slice `[1]` is
non-empty. -/
theorem claim_slices_nonempty_witness :
    (1 ≤ 8 ∧ Reachable 8 srcW snkW sMid ∧ sMid.pphase = PPhase.reading 6 ∧
      sMid.wphase = WPhase.writing [1]) ∧
    ((1 ≤ 6 ∧ sMid.b.readIndex.toNat + 6 ≤ 8) ∧
      (1 ≤ ([1] : List Byte).length ∧ (([1] : List Byte).length : Int) ≤ sMid.b.ready)) := by
  have h := claim_slices_nonempty 8 srcW snkW sMid (by decide) reach_sMid
  exact ⟨⟨by decide, reach_sMid, by decide, by decide⟩,
    h.1 6 (by decide), h.2 [1] (by decide)⟩
